import Mathlib

/-!
# Verification of the `branchless` CLI dispatcher and restack core

This development shallowly embeds `src/branchless/__main__.py` (the argparse
configuration and the `main` dispatcher) and, for the restack idempotence
property, a model of the restack engine built from the specification (the
engine's own source is not part of the repository snapshot).

Conventions for the dispatcher embedding:
* `argparse` is the Python standard library; we embed the behaviour of the
  concrete parser configured in `main`.  Option tokens are recognised exactly
  (no abbreviated long options), the `--` separator ends option processing,
  a token of the shape `-digits` is treated as a positional (the parser has
  no numeric-looking option strings, matching argparse's negative-number
  rule), and a positional chunk is consumed at most once (a second run of
  positionals is an "unrecognized arguments" error, as in argparse).
* A parse error makes argparse abort the process with exit status 2; a `-h`
  inside a sub-command scope triggers that sub-parser's default help action,
  which aborts the process with exit status 0.  Both are modelled by
  `MainBehavior.systemExit`; a normal return of `main` is
  `MainBehavior.returns`, which also records what was printed and which
  handler calls were made.
* The handlers (`init`, `smartlog`, `hide`, ...) live outside this file's
  source; `main` is parameterised by a function assigning each call its
  return code, and the call actually made (with the exact arguments the
  dispatcher passes) is recorded in the behaviour.
-/

set_option autoImplicit false

namespace Branchless

/-- Tie-break policy for the `next` subcommand (`-o`/`-n`). -/
inductive Towards where
  | oldest
  | newest
deriving DecidableEq, Repr

/-- A parsed subcommand together with the values argparse stored for its
arguments (mirrors the per-subparser configuration in `main`). -/
inductive SubCmd where
  | initCmd
  | smartlog
  | sl
  | hide (hashes : List String) (recursive : Bool)
  | unhide (hashes : List String) (recursive : Bool)
  | prevCmd (numCommits : Option Int)
  | nextCmd (numCommits : Option Int) (towards : Option Towards)
  | restack
  | undo
  | hookPostRewrite (rewriteType : String)
  | hookPostCheckout (previousCommit currentCommit : String) (isBranchCheckout : Int)
  | hookPostCommit
deriving DecidableEq, Repr

/-- The argparse namespace produced by `parser.parse_args`: the top-level
`-h`, `--help` store-true flag and the selected subcommand (if any). -/
structure Args where
  help : Bool
  subcommand : Option SubCmd
deriving DecidableEq, Repr

/-- Outcome of running one sub-parser on its argument tokens. -/
inductive SubOut where
  | okSub (s : SubCmd)
  | helpExit
  | errExit
deriving DecidableEq, Repr

/-- Outcome of `parser.parse_args(argv)` for the whole parser. -/
inductive ParseOut where
  | errTop
  | subHelpTop
  | okTop (a : Args)
deriving DecidableEq, Repr

/-- A token is treated as an option by argparse when it starts with `-`,
is not a lone `-`, and does not look like a negative number (the parser has
no option strings that look like negative numbers). -/
def isOptionTok (s : String) : Bool :=
  match s.data with
  | ['-'] => false
  | '-' :: rest => !(rest.all Char.isDigit)
  | _ => false

/-- Decimal value of a digit string (accumulator form); `none` on a
non-digit. -/
def digitsValAux : List Char → Nat → Option Nat
  | [], acc => some acc
  | c :: rest, acc =>
    if c.isDigit then digitsValAux rest (acc * 10 + (c.toNat - '0'.toNat)) else none

/-- Python `int(s)` on a command-line token (optional sign, decimal digits). -/
def parseIntTok (s : String) : Option Int :=
  match s.data with
  | [] => none
  | '-' :: rest =>
    if rest.isEmpty then none else (digitsValAux rest 0).map (fun n => -(n : Int))
  | '+' :: rest =>
    if rest.isEmpty then none else (digitsValAux rest 0).map (fun n => (n : Int))
  | l => (digitsValAux l 0).map (fun n => (n : Int))

/-- A token of the form `--text` (at least one character after the double
dash), subject to argparse long-option matching. -/
def isLongTok (s : String) : Bool :=
  match s.data with
  | '-' :: '-' :: r => !r.isEmpty
  | _ => false

/-- A single-dash token that argparse reads as a cluster of short options:
`-` followed by at least one character, not all digits (a negative number
is a positional) and not a second dash. -/
def isShortTok (s : String) : Bool :=
  match s.data with
  | '-' :: '-' :: _ => false
  | ['-'] => false
  | '-' :: cs => !(cs.all Char.isDigit)
  | _ => false

/-- argparse long-option abbreviation: the option names among `names`
that the token `--text` abbreviates (every name the text is a prefix of;
a unique match selects that option, no match or an ambiguous match is a
usage error). -/
def longOptMatches (names : List String) (t : String) : List String :=
  match t.data with
  | '-' :: '-' :: r =>
    if r.isEmpty then []
    else names.filter (fun nm => decide (nm.data.take r.length = r))
  | _ => []

/-- Result of scanning a consolidated short-option cluster. -/
inductive ShortScan (α : Type) where
  | okS (a : α)
  | helpS
  | errS
deriving DecidableEq, Repr

/-- The `next` sub-parser's short options `-h`, `-o`, `-n`, processed
left to right as argparse does for a consolidated token such as `-oo` or
`-on` (the mutual exclusion of the two store-const flags included; `-h`
fires the help action at its position). -/
def nextShorts : List Char → Option Towards → ShortScan (Option Towards)
  | [], tw => .okS tw
  | c :: cs, tw =>
    if c = 'h' then .helpS
    else if c = 'o' then
      match tw with
      | some .newest => .errS
      | _ => nextShorts cs (some .oldest)
    else if c = 'n' then
      match tw with
      | some .oldest => .errS
      | _ => nextShorts cs (some .newest)
    else .errS

/-- The `hide`/`unhide` sub-parsers' short options `-h`, `-r`. -/
def hideShorts : List Char → Bool → ShortScan Bool
  | [], r => .okS r
  | c :: cs, r =>
    if c = 'h' then .helpS
    else if c = 'r' then hideShorts cs true
    else .errS

/-- Long-option names of the `next` sub-parser. -/
def nextLongNames : List String := ["help", "oldest", "newest"]

/-- Long-option names of the `hide`/`unhide` sub-parsers. -/
def hideLongNames : List String := ["help", "recursive"]

/-- Sub-parser for the subcommands that declare no arguments
(`init`, `smartlog`, `sl`, `restack`, `undo`, `hook-post-commit`).  Any
token — including a lone `--` — is an "unrecognized arguments" usage
error unless it is the help flag (argparse on Python ≤ 3.12 does not
swallow a trailing `--` when the parser consumes no positionals). -/
def parseNoArg (mk : SubCmd) : List String → SubOut
  | [] => .okSub mk
  | t :: _ =>
    if t = "-h" || t = "--help" then .helpExit
    else .errExit

/-- Sub-parser scanner for `hide`/`unhide`: positional `hash` with
`nargs='*'` and the store-true flag `-r`, `--recursive` (also reachable
through argparse long-option abbreviation such as `--rec` and through
consolidated short clusters such as `-rr`).  `afterDD` records that a
`--` separator was seen, `mode` tracks the positional chunk (0 = none
yet, 1 = open, 2 = closed), `hashesRev` accumulates the positionals in
reverse, `recAcc` the recursive flag. -/
def parseHideAux (isHide : Bool) :
    List String → Bool → Nat → List String → Bool → SubOut
  | [], _, _, hashesRev, recAcc =>
    .okSub (if isHide then .hide hashesRev.reverse recAcc else .unhide hashesRev.reverse recAcc)
  | t :: rest, afterDD, mode, hashesRev, recAcc =>
    if afterDD then
      if mode = 2 then .errExit
      else parseHideAux isHide rest afterDD 1 (t :: hashesRev) recAcc
    else if t = "--" then parseHideAux isHide rest true mode hashesRev recAcc
    else if isLongTok t then
      (if longOptMatches hideLongNames t = ["help"] then .helpExit
       else if longOptMatches hideLongNames t = ["recursive"] then
         parseHideAux isHide rest afterDD (if mode = 1 then 2 else mode) hashesRev true
       else .errExit)
    else if isShortTok t then
      (match hideShorts (t.data.drop 1) recAcc with
       | .okS r2 => parseHideAux isHide rest afterDD (if mode = 1 then 2 else mode) hashesRev r2
       | .helpS => .helpExit
       | .errS => .errExit)
    else if mode = 2 then .errExit
    else parseHideAux isHide rest afterDD 1 (t :: hashesRev) recAcc

/-- Sub-parser scanner for `prev`: optional positional `num_commits`
(`nargs='?'`, `type=int`). -/
def parsePrevAux : List String → Bool → Option Int → SubOut
  | [], _, num => .okSub (.prevCmd num)
  | t :: rest, afterDD, num =>
    if afterDD then
      match num, parseIntTok t with
      | none, some v => parsePrevAux rest afterDD (some v)
      | _, _ => .errExit
    else if t = "-h" || t = "--help" then .helpExit
    else if t = "--" then parsePrevAux rest true num
    else if isOptionTok t then .errExit
    else
      match num, parseIntTok t with
      | none, some v => parsePrevAux rest afterDD (some v)
      | _, _ => .errExit

/-- Sub-parser scanner for `next`: optional positional `num_commits` and the
mutually exclusive store-const flags `-o`, `--oldest` and `-n`, `--newest`
(both storing into `towards`; also reachable through argparse long-option
abbreviation such as `--old` and consolidated short clusters such as
`-oo`). -/
def parseNextAux : List String → Bool → Option Int → Option Towards → SubOut
  | [], _, num, tw => .okSub (.nextCmd num tw)
  | t :: rest, afterDD, num, tw =>
    if afterDD then
      match num, parseIntTok t with
      | none, some v => parseNextAux rest afterDD (some v) tw
      | _, _ => .errExit
    else if t = "--" then parseNextAux rest true num tw
    else if isLongTok t then
      (if longOptMatches nextLongNames t = ["help"] then .helpExit
       else if longOptMatches nextLongNames t = ["oldest"] then
         (match tw with
          | some .newest => .errExit
          | _ => parseNextAux rest afterDD num (some .oldest))
       else if longOptMatches nextLongNames t = ["newest"] then
         (match tw with
          | some .oldest => .errExit
          | _ => parseNextAux rest afterDD num (some .newest))
       else .errExit)
    else if isShortTok t then
      (match nextShorts (t.data.drop 1) tw with
       | .okS tw2 => parseNextAux rest afterDD num tw2
       | .helpS => .helpExit
       | .errS => .errExit)
    else
      match num, parseIntTok t with
      | none, some v => parseNextAux rest afterDD (some v) tw
      | _, _ => .errExit

/-- Sub-parser scanner for `hook-post-rewrite`: one required positional
`rewrite_type` of type str. -/
def parseHookRewriteAux : List String → Bool → Option String → SubOut
  | [], _, some ty => .okSub (.hookPostRewrite ty)
  | [], _, none => .errExit
  | t :: rest, afterDD, acc =>
    if afterDD then
      match acc with
      | some _ => .errExit
      | none => parseHookRewriteAux rest afterDD (some t)
    else if t = "-h" || t = "--help" then .helpExit
    else if t = "--" then parseHookRewriteAux rest true acc
    else if isOptionTok t then .errExit
    else
      match acc with
      | some _ => .errExit
      | none => parseHookRewriteAux rest afterDD (some t)

/-- Sub-parser scanner for `hook-post-checkout`: required positionals
`previous_commit` (str), `current_commit` (str), `is_branch_checkout` (int).
`accRev` accumulates the positionals in reverse. -/
def parseHookCheckoutAux : List String → Bool → List String → SubOut
  | [], _, accRev =>
    match accRev.reverse with
    | [a, b, c] =>
      match parseIntTok c with
      | some v => .okSub (.hookPostCheckout a b v)
      | none => .errExit
    | _ => .errExit
  | t :: rest, afterDD, accRev =>
    if afterDD then
      if accRev.length ≥ 3 then .errExit
      else parseHookCheckoutAux rest afterDD (t :: accRev)
    else if t = "-h" || t = "--help" then .helpExit
    else if t = "--" then parseHookCheckoutAux rest true accRev
    else if isOptionTok t then .errExit
    else if accRev.length ≥ 3 then .errExit
    else parseHookCheckoutAux rest afterDD (t :: accRev)

/-- Dispatch table of registered subcommand names (including the `sl` alias
registered for `smartlog`): run the corresponding sub-parser, or `none` for
an unregistered name (argparse's "invalid choice" error). -/
def parseSubTokens (name : String) (rest : List String) : Option SubOut :=
  if name = "init" then some (parseNoArg .initCmd rest)
  else if name = "smartlog" then some (parseNoArg .smartlog rest)
  else if name = "sl" then some (parseNoArg .sl rest)
  else if name = "hide" then some (parseHideAux true rest false 0 [] false)
  else if name = "unhide" then some (parseHideAux false rest false 0 [] false)
  else if name = "prev" then some (parsePrevAux rest false none)
  else if name = "next" then some (parseNextAux rest false none none)
  else if name = "restack" then some (parseNoArg .restack rest)
  else if name = "undo" then some (parseNoArg .undo rest)
  else if name = "hook-post-rewrite" then some (parseHookRewriteAux rest false none)
  else if name = "hook-post-checkout" then some (parseHookCheckoutAux rest false [])
  else if name = "hook-post-commit" then some (parseNoArg .hookPostCommit rest)
  else none

/-- Select a subcommand by its (positional) name token and parse the
remaining tokens with its sub-parser. -/
def dispatchSub (help : Bool) (name : String) (rest : List String) : ParseOut :=
  match parseSubTokens name rest with
  | none => .errTop
  | some .errExit => .errTop
  | some .helpExit => .subHelpTop
  | some (.okSub sc) => .okTop ⟨help, some sc⟩

/-- Top-level scan of `parser.parse_args`: the custom `-h`, `--help` store-true
flag, then the first positional selects the subcommand and hands the
remaining tokens to its sub-parser.  A top-level `--` token is a usage
error (argparse on Python ≤ 3.12 aborts with exit status 2 on `['--']`
and `['--', name, ...]`). -/
def parseTopAux : List String → Bool → ParseOut
  | [], help => .okTop ⟨help, none⟩
  | t :: rest, help =>
    if t = "-h" || t = "--help" then parseTopAux rest true
    else if t = "--" then .errTop
    else if isOptionTok t then .errTop
    else dispatchSub help t rest

/-- `parser.parse_args(argv)` for the parser configured in `main`. -/
def parseArgs (argv : List String) : ParseOut :=
  parseTopAux argv false

/-- A call made by the dispatcher to one of the handler functions, with the
arguments the dispatcher actually passes (output streams elided). -/
inductive Call where
  | initCmd
  | smartlog
  | hide (hashes : List String) (recursive : Bool)
  | unhide (hashes : List String) (recursive : Bool)
  | prevCmd (numCommits : Option Int)
  | nextCmd (numCommits : Option Int) (towards : Option Towards)
  | restack (preserveTimestamps : Bool)
  | undo
  | hookPostRewrite
  | hookPostCheckout (previousHeadRef currentHeadRef : String) (isBranchCheckout : Int)
  | hookPostCommit
deriving DecidableEq, Repr

/-- The handler call `main` makes for each parsed subcommand, mirroring the
`elif` chain: `sl` dispatches to the same `smartlog` call, `restack` is
always invoked with `preserve_timestamps=False`, and `hook-post-rewrite`
passes only the output stream (the parsed `rewrite_type` is not an
argument of the call). -/
def callOf : SubCmd → Call
  | .initCmd => .initCmd
  | .smartlog => .smartlog
  | .sl => .smartlog
  | .hide hs r => .hide hs r
  | .unhide hs r => .unhide hs r
  | .prevCmd n => .prevCmd n
  | .nextCmd n t => .nextCmd n t
  | .restack => .restack false
  | .undo => .undo
  | .hookPostRewrite _ => .hookPostRewrite
  | .hookPostCheckout a b v => .hookPostCheckout a b v
  | .hookPostCommit => .hookPostCommit

/-- The hook calls: their handler results are discarded by the dispatcher. -/
def isHookCall : Call → Bool
  | .hookPostRewrite => true
  | .hookPostCheckout _ _ _ => true
  | .hookPostCommit => true
  | _ => false

/-- What `main` printed on its normal-return paths. -/
inductive Printed where
  | nothing
  | helpText
  | usageText
deriving DecidableEq, Repr

/-- Observable behaviour of one invocation of `main`: either argparse
aborted the process (`systemExit`, status 2 for a usage error, status 0 for
a sub-parser help action), or `main` returned a code, having printed
`printed` and made the recorded handler calls. -/
inductive MainBehavior where
  | systemExit (code : Nat)
  | returns (printed : Printed) (code : Int) (calls : List Call)
deriving DecidableEq, Repr

/-- The `main` entry point: parse `argv`, honour the top-level help flag,
otherwise dispatch on the parsed subcommand.  `handlers` assigns each
handler call its return code; hook handler results are discarded and the
dispatcher returns 0 for them. -/
def main (handlers : Call → Int) (argv : List String) : MainBehavior :=
  match parseArgs argv with
  | .errTop => .systemExit 2
  | .subHelpTop => .systemExit 0
  | .okTop args =>
    if args.help then .returns .helpText 0 []
    else
      match args.subcommand with
      | none => .returns .usageText 1 []
      | some s =>
        let c := callOf s
        .returns .nothing (if isHookCall c then 0 else handlers c) [c]

end Branchless


/-! ## Basic dispatcher lemmas -/

namespace Branchless

/-- `dispatchSub` succeeds exactly when the sub-parser returned a parsed
subcommand, and then records the accumulated help flag. -/
theorem dispatchSub_okTop {help : Bool} {name : String} {rest : List String} {a : Args}
    (h : dispatchSub help name rest = .okTop a) :
    ∃ sc, parseSubTokens name rest = some (.okSub sc) ∧ a = ⟨help, some sc⟩ := by
  unfold dispatchSub at h
  cases hs : parseSubTokens name rest with
  | none => rw [hs] at h; cases h
  | some o =>
    rw [hs] at h
    cases o with
    | okSub sc => exact ⟨sc, rfl, by cases h; rfl⟩
    | helpExit => cases h
    | errExit => cases h

/-- A no-argument sub-parser gives the same verdict for any two registered
subcommands; on success it returns exactly the designated subcommand. -/
theorem parseNoArg_uniform (mk₁ mk₂ : SubCmd) (toks : List String) :
    (parseNoArg mk₁ toks = .okSub mk₁ ∧ parseNoArg mk₂ toks = .okSub mk₂) ∨
    (parseNoArg mk₁ toks = .helpExit ∧ parseNoArg mk₂ toks = .helpExit) ∨
    (parseNoArg mk₁ toks = .errExit ∧ parseNoArg mk₂ toks = .errExit) := by
  cases toks with
  | nil => exact Or.inl ⟨rfl, rfl⟩
  | cons t r =>
    simp only [parseNoArg]
    split_ifs <;> simp


/-- C3: The subcommand `sl` is an exact alias of `smartlog`: for every
handler assignment and every remaining argument list, `main` on `sl`
performs the same operation, makes the same `smartlog` call, and returns
the same exit code as on `smartlog`. -/
theorem sl_is_exact_alias_of_smartlog (handlers : Call → Int) (rest : List String) :
    main handlers ("sl" :: rest) = main handlers ("smartlog" :: rest) := by
  have e1 : parseArgs ("sl" :: rest) = dispatchSub false "sl" rest := rfl
  have e2 : parseArgs ("smartlog" :: rest) = dispatchSub false "smartlog" rest := rfl
  have p1 : parseSubTokens "sl" rest = some (parseNoArg SubCmd.sl rest) := rfl
  have p2 : parseSubTokens "smartlog" rest = some (parseNoArg SubCmd.smartlog rest) := rfl
  rcases parseNoArg_uniform SubCmd.sl SubCmd.smartlog rest with ⟨h1, h2⟩ | ⟨h1, h2⟩ | ⟨h1, h2⟩ <;>
    (unfold main; rw [e1, e2]; unfold dispatchSub; rw [p1, p2, h1, h2]; try rfl)


/-- C8: every hook subcommand invocation that completes makes `main` return
exit code 0 unconditionally — whatever the hook handler returns, a
normal return of `main` whose single recorded call is a hook call carries
exit code 0. -/
theorem hook_exit_code_zero (handlers : Call → Int) (argv : List String)
    (pr : Printed) (code : Int) (c : Call)
    (h : main handlers argv = .returns pr code [c]) (hk : isHookCall c = true) :
    code = 0 := by
  unfold main at h
  cases hp : parseArgs argv with
  | errTop => rw [hp] at h; cases h
  | subHelpTop => rw [hp] at h; cases h
  | okTop a =>
    rw [hp] at h
    by_cases hh : a.help
    · simp only [hh, if_true] at h
      cases h
    · simp only [hh, if_false, Bool.not_eq_true] at h
      cases hs : a.subcommand with
      | none => rw [hs] at h; cases h
      | some s =>
        rw [hs] at h
        cases h
        simp only [hk, if_true]

/-- C8 witness: a concrete hook invocation whose handler returns 5 still
makes `main` return 0. -/
theorem hook_exit_code_zero_witness :
    main (fun _ => 5) ["hook-post-commit"] =
      .returns .nothing 0 [Call.hookPostCommit] ∧ (0 : Int) = 0 :=
  ⟨rfl, hook_exit_code_zero (fun _ => 5) ["hook-post-commit"] .nothing 0
    Call.hookPostCommit rfl rfl⟩

/-- C10: the dispatcher always passes `preserve_timestamps=False` to
`restack` — any restack call recorded by any invocation of `main` has the
flag `false`, and the `restack` subcommand dispatches exactly that call. -/
theorem restack_never_preserves_timestamps :
    (∀ (handlers : Call → Int) (argv : List String) (pr : Printed) (code : Int)
        (calls : List Call) (b : Bool),
        main handlers argv = .returns pr code calls → Call.restack b ∈ calls → b = false) ∧
    (∀ handlers : Call → Int,
        main handlers ["restack"] =
          .returns .nothing (handlers (.restack false)) [.restack false]) := by
  constructor
  · intro handlers argv pr code calls b h hmem
    unfold main at h
    cases hp : parseArgs argv with
    | errTop => rw [hp] at h; cases h
    | subHelpTop => rw [hp] at h; cases h
    | okTop a =>
      rw [hp] at h
      by_cases hh : a.help
      · simp only [hh, if_true] at h
        cases h
        simp at hmem
      · simp only [hh, if_false, Bool.not_eq_true] at h
        cases hs : a.subcommand with
        | none =>
          rw [hs] at h
          cases h
          simp at hmem
        | some s =>
          rw [hs] at h
          cases h
          simp only [List.mem_singleton] at hmem
          cases s <;> simp_all [callOf]
  · intro handlers
    rfl

/-- C10 witness: the concrete `restack` invocation records the call with
`preserve_timestamps=False`, and the universal conjunct applied to it
confirms the flag is `false`. -/
theorem restack_never_preserves_timestamps_witness :
    (false : Bool) = false ∧
    main (fun _ => 4) ["restack"] =
      .returns .nothing ((fun _ => (4 : Int)) (Call.restack false)) [Call.restack false] :=
  ⟨restack_never_preserves_timestamps.1 (fun _ => 4) ["restack"] .nothing 4
      [Call.restack false] false rfl (by decide),
   restack_never_preserves_timestamps.2 (fun _ => 4)⟩


/-- C2 counterexample: the dispatcher does not pass the parsed rewrite type
to the hook — two invocations with distinct rewrite kinds make the
identical handler call (which mirrors `hook_post_rewrite(out=out)`), so the
hook cannot receive the rewrite kind. -/
theorem hook_post_rewrite_same_call_cex :
    main (fun _ => 3) ["hook-post-rewrite", "amend"] =
      .returns .nothing 0 [Call.hookPostRewrite] ∧
    main (fun _ => 3) ["hook-post-rewrite", "amend"] =
      main (fun _ => 3) ["hook-post-rewrite", "rebase"] :=
  ⟨rfl, rfl⟩

/-- C2 (amended): for every invocation `['hook-post-rewrite', ty]` whose
`ty` token is a plain argument, the dispatcher parses the rewrite type but
invokes the post-rewrite hook without passing it (the call carries no
rewrite-kind argument), and then returns 0. -/
theorem hook_post_rewrite_discards_type (handlers : Call → Int) (ty : String)
    (h1 : isOptionTok ty = false) (h2 : ty ≠ "--") :
    main handlers ["hook-post-rewrite", ty] =
      .returns .nothing 0 [Call.hookPostRewrite] := by
  have hh1 : ty ≠ "-h" := by intro e; rw [e] at h1; cases h1
  have hh2 : ty ≠ "--help" := by intro e; rw [e] at h1; cases h1
  have e1 : parseArgs ["hook-post-rewrite", ty] =
      dispatchSub false "hook-post-rewrite" [ty] := rfl
  have e2 : parseSubTokens "hook-post-rewrite" [ty] =
      some (parseHookRewriteAux [ty] false none) := rfl
  have e3 : parseHookRewriteAux [ty] false none = .okSub (.hookPostRewrite ty) := by
    simp only [parseHookRewriteAux, if_false]
    simp [hh1, hh2, h2, h1]
  unfold main
  rw [e1]
  unfold dispatchSub
  rw [e2, e3]
  rfl

/-- C2 witness: the amended dispatch at the concrete rewrite type `amend`. -/
theorem hook_post_rewrite_discards_type_witness :
    main (fun _ => 3) ["hook-post-rewrite", "amend"] =
      .returns .nothing 0 [Call.hookPostRewrite] :=
  hook_post_rewrite_discards_type (fun _ => 3) "amend" rfl (by decide)

/-- C6: for every invocation `['hook-post-checkout', p, c, b]` with plain
argument tokens and `b` parsing as an integer, the dispatcher passes all
three arguments through to the post-checkout hook call — previous ref,
current ref, and the is-branch-checkout value — and then returns 0. -/
theorem hook_post_checkout_passthrough (handlers : Call → Int)
    (p c b : String) (n : Int)
    (hp1 : isOptionTok p = false) (hp2 : p ≠ "--")
    (hc1 : isOptionTok c = false) (hc2 : c ≠ "--")
    (hb1 : isOptionTok b = false) (hb2 : b ≠ "--")
    (hn : parseIntTok b = some n) :
    main handlers ["hook-post-checkout", p, c, b] =
      .returns .nothing 0 [Call.hookPostCheckout p c n] := by
  have hph : p ≠ "-h" := by intro e; rw [e] at hp1; cases hp1
  have hpH : p ≠ "--help" := by intro e; rw [e] at hp1; cases hp1
  have hch : c ≠ "-h" := by intro e; rw [e] at hc1; cases hc1
  have hcH : c ≠ "--help" := by intro e; rw [e] at hc1; cases hc1
  have hbh : b ≠ "-h" := by intro e; rw [e] at hb1; cases hb1
  have hbH : b ≠ "--help" := by intro e; rw [e] at hb1; cases hb1
  have e1 : parseArgs ["hook-post-checkout", p, c, b] =
      dispatchSub false "hook-post-checkout" [p, c, b] := rfl
  have e2 : parseSubTokens "hook-post-checkout" [p, c, b] =
      some (parseHookCheckoutAux [p, c, b] false []) := rfl
  have e3 : parseHookCheckoutAux [p, c, b] false [] =
      .okSub (.hookPostCheckout p c n) := by
    simp only [parseHookCheckoutAux, if_false]
    simp [hph, hpH, hp2, hp1, hch, hcH, hc2, hc1, hbh, hbH, hb2, hb1, hn]
  unfold main
  rw [e1]
  unfold dispatchSub
  rw [e2, e3]
  rfl

/-- C6 witness: a concrete post-checkout hook invocation passes the three
arguments through and returns 0. -/
theorem hook_post_checkout_passthrough_witness :
    main (fun _ => 9) ["hook-post-checkout", "abc", "def", "1"] =
      .returns .nothing 0 [Call.hookPostCheckout "abc" "def" 1] :=
  hook_post_checkout_passthrough (fun _ => 9) "abc" "def" "1" 1
    rfl (by decide) rfl (by decide) rfl (by decide) rfl


/-- C1 counterexample: an argv whose first token is not a registered
subcommand (and contains no help flag) does not make `main` print usage and
return 1 — argparse aborts the process with exit status 2 ("invalid
choice"). -/
theorem exit_code_unknown_subcommand_cex :
    main (fun _ => 0) ["foo"] = .systemExit 2 ∧
    MainBehavior.systemExit 2 ≠ .returns .usageText 1 [] :=
  ⟨rfl, by decide⟩

/-- C1 (amended): `main` returns 0 for every successfully parsed help
invocation; it prints the usage text and returns 1 when parsing succeeds
with no subcommand selected and no help flag (the no-subcommand case); and
an argv whose first token is a plain token that names no registered
subcommand makes argparse abort with exit status 2 instead of returning 1. -/
theorem exit_code_usage_amended :
    (∀ (handlers : Call → Int) (argv : List String) (sub : Option SubCmd),
        parseArgs argv = .okTop ⟨true, sub⟩ →
        main handlers argv = .returns .helpText 0 []) ∧
    (∀ (handlers : Call → Int) (argv : List String),
        parseArgs argv = .okTop ⟨false, none⟩ →
        main handlers argv = .returns .usageText 1 []) ∧
    (∀ (handlers : Call → Int) (t : String) (rest : List String),
        isOptionTok t = false → t ≠ "--" → t ≠ "-h" → t ≠ "--help" →
        parseSubTokens t rest = none →
        main handlers (t :: rest) = .systemExit 2) := by
  refine ⟨?_, ?_, ?_⟩
  · intro handlers argv sub hp
    unfold main
    rw [hp]
    rfl
  · intro handlers argv hp
    unfold main
    rw [hp]
    rfl
  · intro handlers t rest h1 h2 h3 h4 h5
    have e1 : parseArgs (t :: rest) = parseTopAux (t :: rest) false := rfl
    have e2 : parseTopAux (t :: rest) false = dispatchSub false t rest := by
      simp only [parseTopAux]
      simp [h1, h2, h3, h4]
    unfold main
    rw [e1, e2]
    unfold dispatchSub
    rw [h5]

/-- C1 witness: the three amended cases at concrete inputs — `-h` returns
0, the empty argv prints usage and returns 1, and an unknown subcommand
token aborts with status 2. -/
theorem exit_code_usage_witness :
    main (fun _ => 0) ["-h"] = .returns .helpText 0 [] ∧
    main (fun _ => 0) [] = .returns .usageText 1 [] ∧
    main (fun _ => 0) ["foo"] = .systemExit 2 :=
  ⟨exit_code_usage_amended.1 (fun _ => 0) ["-h"] none rfl,
   exit_code_usage_amended.2.1 (fun _ => 0) [] rfl,
   exit_code_usage_amended.2.2 (fun _ => 0) "foo" [] rfl (by decide) (by decide)
     (by decide) rfl⟩


/-- One-step unfolding of the `next` scanner on a cons cell. -/
theorem parseNextAux_cons (t : String) (rest : List String) (dd : Bool)
    (num : Option Int) (tw : Option Towards) :
    parseNextAux (t :: rest) dd num tw =
      if dd then
        (match num, parseIntTok t with
          | none, some v => parseNextAux rest dd (some v) tw
          | _, _ => SubOut.errExit)
      else if t = "--" then parseNextAux rest true num tw
      else if isLongTok t then
        (if longOptMatches nextLongNames t = ["help"] then SubOut.helpExit
         else if longOptMatches nextLongNames t = ["oldest"] then
           (match tw with
            | some Towards.newest => SubOut.errExit
            | _ => parseNextAux rest dd num (some Towards.oldest))
         else if longOptMatches nextLongNames t = ["newest"] then
           (match tw with
            | some Towards.oldest => SubOut.errExit
            | _ => parseNextAux rest dd num (some Towards.newest))
         else SubOut.errExit)
      else if isShortTok t then
        (match nextShorts (t.data.drop 1) tw with
         | .okS tw2 => parseNextAux rest dd num tw2
         | .helpS => SubOut.helpExit
         | .errS => SubOut.errExit)
      else
        (match num, parseIntTok t with
          | none, some v => parseNextAux rest dd (some v) tw
          | _, _ => SubOut.errExit) := rfl

/-- One-step unfolding of the `next` short-option cluster scan. -/
theorem nextShorts_cons (c : Char) (cs : List Char) (tw : Option Towards) :
    nextShorts (c :: cs) tw =
      if c = 'h' then ShortScan.helpS
      else if c = 'o' then
        (match tw with
         | some Towards.newest => ShortScan.errS
         | _ => nextShorts cs (some Towards.oldest))
      else if c = 'n' then
        (match tw with
         | some Towards.oldest => ShortScan.errS
         | _ => nextShorts cs (some Towards.newest))
      else ShortScan.errS := rfl

/-- A short cluster without an `o` or `n` character cannot change the
`towards` accumulator. -/
theorem nextShorts_const :
    ∀ (cs : List Char) (tw tw2 : Option Towards),
    cs.any (fun c => c = 'o' || c = 'n') = false →
    nextShorts cs tw = .okS tw2 → tw2 = tw := by
  intro cs
  induction cs with
  | nil =>
    intro tw tw2 _ h
    cases h
    rfl
  | cons c cs ih =>
    intro tw tw2 hany h
    simp only [List.any_cons, Bool.or_eq_false_iff, decide_eq_false_iff_not] at hany
    obtain ⟨⟨hco, hcn⟩, hcs⟩ := hany
    rw [nextShorts_cons] at h
    by_cases h1 : c = 'h'
    · rw [if_pos h1] at h; cases h
    · rw [if_neg h1, if_neg hco, if_neg hcn] at h
      cases h

/-- The tokens through which argparse can set the `towards` flag of
`next`: a long token abbreviating `--oldest` or `--newest`, or a short
cluster containing an `o` or `n`. -/
def setsTowards (t : String) : Bool :=
  longOptMatches nextLongNames t = ["oldest"] ||
  longOptMatches nextLongNames t = ["newest"] ||
  (isShortTok t && (t.data.drop 1).any (fun c => c = 'o' || c = 'n'))

/-- If no remaining token can set the flag, the `next` sub-parser leaves
the `towards` accumulator untouched: a successful parse returns exactly
the accumulated value. -/
theorem parseNextAux_towards_const (toks : List String) :
    ∀ (dd : Bool) (num : Option Int) (tw : Option Towards)
      (n : Option Int) (t_ : Option Towards),
    (∀ t ∈ toks, setsTowards t = false) →
    parseNextAux toks dd num tw = .okSub (.nextCmd n t_) → t_ = tw := by
  induction toks with
  | nil =>
    intro dd num tw n t_ _ h
    have h0 : parseNextAux [] dd num tw = .okSub (.nextCmd num tw) := rfl
    rw [h0] at h
    cases h
    rfl
  | cons t rest ih =>
    intro dd num tw n t_ hall h
    have hsets : setsTowards t = false := hall t (List.mem_cons_self _ _)
    have hrest : ∀ u ∈ rest, setsTowards u = false :=
      fun u hu => hall u (List.mem_cons_of_mem _ hu)
    have hO : ¬ longOptMatches nextLongNames t = ["oldest"] := by
      intro e
      have he : setsTowards t = true := by unfold setsTowards; rw [e]; simp
      rw [hsets] at he
      cases he
    have hN : ¬ longOptMatches nextLongNames t = ["newest"] := by
      intro e
      have he : setsTowards t = true := by unfold setsTowards; rw [e]; simp
      rw [hsets] at he
      cases he
    have hSh : isShortTok t = true →
        (t.data.drop 1).any (fun c => c = 'o' || c = 'n') = false := by
      intro hst
      cases e : (t.data.drop 1).any (fun c => c = 'o' || c = 'n') with
      | false => rfl
      | true =>
        have he : setsTowards t = true := by unfold setsTowards; rw [hst, e]; simp
        rw [hsets] at he
        cases he
    rw [parseNextAux_cons] at h
    by_cases hdd : dd = true
    · rw [if_pos hdd] at h
      cases num with
      | some v => cases h
      | none =>
        cases hpt : parseIntTok t with
        | some v => rw [hpt] at h; exact ih dd (some v) tw n t_ hrest h
        | none => rw [hpt] at h; cases h
    · rw [if_neg hdd] at h
      by_cases hx : t = "--"
      · rw [if_pos hx] at h
        exact ih true num tw n t_ hrest h
      · rw [if_neg hx] at h
        by_cases hlt : isLongTok t = true
        · rw [if_pos hlt] at h
          by_cases hH : longOptMatches nextLongNames t = ["help"]
          · rw [if_pos hH] at h; cases h
          · rw [if_neg hH, if_neg hO, if_neg hN] at h; cases h
        · rw [if_neg hlt] at h
          by_cases hst : isShortTok t = true
          · rw [if_pos hst] at h
            cases hns : nextShorts (t.data.drop 1) tw with
            | okS tw2 =>
              rw [hns] at h
              have htw : tw2 = tw := nextShorts_const _ tw tw2 (hSh hst) hns
              rw [htw] at h
              exact ih dd num tw n t_ hrest h
            | helpS => rw [hns] at h; cases h
            | errS => rw [hns] at h; cases h
          · rw [if_neg hst] at h
            cases num with
            | some v => cases h
            | none =>
              cases hpt : parseIntTok t with
              | some v => rw [hpt] at h; exact ih dd (some v) tw n t_ hrest h
              | none => rw [hpt] at h; cases h

/-- C4: the `next` tie-break policy defaults to `None` (no token that
argparse resolves to a tie-break flag gives `towards = none`), `-o` (also
as an abbreviation like `--old` or inside a cluster like `-oo`) selects
`oldest`, `-n` selects `newest`, giving both flags in one invocation —
in any spelling — is rejected as a usage error, and the dispatcher
passes the parsed pair through to the `next` call unchanged. -/
theorem next_towards_dispatch :
    parseArgs ["next"] = .okTop ⟨false, some (.nextCmd none none)⟩ ∧
    parseArgs ["next", "-o"] = .okTop ⟨false, some (.nextCmd none (some .oldest))⟩ ∧
    parseArgs ["next", "-n"] = .okTop ⟨false, some (.nextCmd none (some .newest))⟩ ∧
    parseArgs ["next", "--old"] = .okTop ⟨false, some (.nextCmd none (some .oldest))⟩ ∧
    parseArgs ["next", "-oo"] = .okTop ⟨false, some (.nextCmd none (some .oldest))⟩ ∧
    parseArgs ["next", "-o", "-n"] = .errTop ∧
    parseArgs ["next", "-n", "-o"] = .errTop ∧
    parseArgs ["next", "-on"] = .errTop ∧
    (∀ (rest : List String) (n : Option Int) (tw : Option Towards),
        (∀ t ∈ rest, setsTowards t = false) →
        parseNextAux rest false none none = .okSub (.nextCmd n tw) → tw = none) ∧
    (∀ (handlers : Call → Int) (argv : List String) (n : Option Int)
        (t_ : Option Towards),
        parseArgs argv = .okTop ⟨false, some (.nextCmd n t_)⟩ →
        main handlers argv =
          .returns .nothing (handlers (.nextCmd n t_)) [.nextCmd n t_]) := by
  refine ⟨rfl, rfl, rfl, rfl, rfl, rfl, rfl, rfl, ?_, ?_⟩
  · intro rest n tw hall h
    exact parseNextAux_towards_const rest false none none n tw hall h
  · intro handlers argv n t_ hp
    unfold main
    rw [hp]
    rfl

/-- C4 witness: the default (no flag) invocation `next 3` parses with
`towards = none` and is dispatched unchanged. -/
theorem next_towards_dispatch_witness :
    (Option.none : Option Towards) = none ∧
    main (fun _ => 2) ["next", "3"] =
      .returns .nothing ((fun _ => (2 : Int)) (Call.nextCmd (some 3) none))
        [Call.nextCmd (some 3) none] :=
  ⟨next_towards_dispatch.2.2.2.2.2.2.2.2.1 ["3"] (some 3) none
      (by decide) rfl,
   next_towards_dispatch.2.2.2.2.2.2.2.2.2 (fun _ => 2) ["next", "3"] (some 3) none rfl⟩

/-- One-step unfolding of the `hide`/`unhide` scanner on a cons cell. -/
theorem parseHideAux_cons (isHide : Bool) (t : String) (rest : List String)
    (dd : Bool) (mode : Nat) (hashesRev : List String) (recAcc : Bool) :
    parseHideAux isHide (t :: rest) dd mode hashesRev recAcc =
      if dd then
        (if mode = 2 then SubOut.errExit
         else parseHideAux isHide rest dd 1 (t :: hashesRev) recAcc)
      else if t = "--" then parseHideAux isHide rest true mode hashesRev recAcc
      else if isLongTok t then
        (if longOptMatches hideLongNames t = ["help"] then SubOut.helpExit
         else if longOptMatches hideLongNames t = ["recursive"] then
           parseHideAux isHide rest dd (if mode = 1 then 2 else mode) hashesRev true
         else SubOut.errExit)
      else if isShortTok t then
        (match hideShorts (t.data.drop 1) recAcc with
         | .okS r2 => parseHideAux isHide rest dd (if mode = 1 then 2 else mode) hashesRev r2
         | .helpS => SubOut.helpExit
         | .errS => SubOut.errExit)
      else if mode = 2 then SubOut.errExit
      else parseHideAux isHide rest dd 1 (t :: hashesRev) recAcc := rfl

/-- One-step unfolding of the `hide`/`unhide` short-option cluster scan. -/
theorem hideShorts_cons (c : Char) (cs : List Char) (r : Bool) :
    hideShorts (c :: cs) r =
      if c = 'h' then ShortScan.helpS
      else if c = 'r' then hideShorts cs true
      else ShortScan.errS := rfl

/-- A short cluster without an `r` character cannot change the recursive
accumulator. -/
theorem hideShorts_const :
    ∀ (cs : List Char) (r r2 : Bool),
    cs.any (fun c => c = 'r') = false →
    hideShorts cs r = .okS r2 → r2 = r := by
  intro cs
  induction cs with
  | nil =>
    intro r r2 _ h
    cases h
    rfl
  | cons c cs ih =>
    intro r r2 hany h
    simp only [List.any_cons, Bool.or_eq_false_iff, decide_eq_false_iff_not] at hany
    obtain ⟨hcr, hcs⟩ := hany
    rw [hideShorts_cons] at h
    by_cases h1 : c = 'h'
    · rw [if_pos h1] at h; cases h
    · rw [if_neg h1, if_neg hcr] at h
      cases h

/-- The tokens through which argparse can set the recursive flag of
`hide`/`unhide`: a long token abbreviating `--recursive`, or a short
cluster containing an `r`. -/
def setsRecursive (t : String) : Bool :=
  longOptMatches hideLongNames t = ["recursive"] ||
  (isShortTok t && (t.data.drop 1).any (fun c => c = 'r'))

/-- The recursive flag recorded in a parsed `hide`/`unhide` subcommand. -/
def subRec : SubCmd → Option Bool
  | .hide _ r => some r
  | .unhide _ r => some r
  | _ => none

/-- If no remaining token can set the flag, the `hide`/`unhide` scanner
leaves the recursive accumulator untouched: a successful parse records
exactly the accumulated flag. -/
theorem parseHideAux_rec_const (isHide : Bool) (toks : List String) :
    ∀ (dd : Bool) (mode : Nat) (hs : List String) (recAcc : Bool) (sc : SubCmd),
    (∀ t ∈ toks, setsRecursive t = false) →
    parseHideAux isHide toks dd mode hs recAcc = .okSub sc →
    subRec sc = some recAcc := by
  induction toks with
  | nil =>
    intro dd mode hs recAcc sc _ h
    have h0 : parseHideAux isHide [] dd mode hs recAcc =
        .okSub (if isHide then .hide hs.reverse recAcc else .unhide hs.reverse recAcc) := rfl
    rw [h0] at h
    cases h
    cases isHide <;> rfl
  | cons t rest ih =>
    intro dd mode hs recAcc sc hall h
    have hsets : setsRecursive t = false := hall t (List.mem_cons_self _ _)
    have hrest : ∀ u ∈ rest, setsRecursive u = false :=
      fun u hu => hall u (List.mem_cons_of_mem _ hu)
    have hR : ¬ longOptMatches hideLongNames t = ["recursive"] := by
      intro e
      have he : setsRecursive t = true := by unfold setsRecursive; rw [e]; simp
      rw [hsets] at he
      cases he
    have hSh : isShortTok t = true →
        (t.data.drop 1).any (fun c => c = 'r') = false := by
      intro hst
      cases e : (t.data.drop 1).any (fun c => c = 'r') with
      | false => rfl
      | true =>
        have he : setsRecursive t = true := by unfold setsRecursive; rw [hst, e]; simp
        rw [hsets] at he
        cases he
    rw [parseHideAux_cons] at h
    by_cases hdd : dd = true
    · rw [if_pos hdd] at h
      by_cases hm : mode = 2
      · rw [if_pos hm] at h; cases h
      · rw [if_neg hm] at h; exact ih dd 1 (t :: hs) recAcc sc hrest h
    · rw [if_neg hdd] at h
      by_cases hx : t = "--"
      · rw [if_pos hx] at h; exact ih true mode hs recAcc sc hrest h
      · rw [if_neg hx] at h
        by_cases hlt : isLongTok t = true
        · rw [if_pos hlt] at h
          by_cases hH : longOptMatches hideLongNames t = ["help"]
          · rw [if_pos hH] at h; cases h
          · rw [if_neg hH, if_neg hR] at h; cases h
        · rw [if_neg hlt] at h
          by_cases hst : isShortTok t = true
          · rw [if_pos hst] at h
            cases hhs : hideShorts (t.data.drop 1) recAcc with
            | okS r2 =>
              rw [hhs] at h
              have hrr : r2 = recAcc := hideShorts_const _ recAcc r2 (hSh hst) hhs
              rw [hrr] at h
              exact ih dd (if mode = 1 then 2 else mode) hs recAcc sc hrest h
            | helpS => rw [hhs] at h; cases h
            | errS => rw [hhs] at h; cases h
          · rw [if_neg hst] at h
            by_cases hm : mode = 2
            · rw [if_pos hm] at h; cases h
            · rw [if_neg hm] at h; exact ih dd 1 (t :: hs) recAcc sc hrest h

/-- C5: `hide` and `unhide` accept zero or more hashes and an optional
`-r`/`--recursive` flag (also reachable as an abbreviation like `--rec`
or inside a cluster like `-rr`); the recursive flag defaults to `false`
when no such token is given, and every successful parse is passed
through unchanged — the full hash list and the flag — to the
corresponding handler call. -/
theorem hide_unhide_passthrough :
    parseArgs ["hide"] = .okTop ⟨false, some (.hide [] false)⟩ ∧
    parseArgs ["unhide"] = .okTop ⟨false, some (.unhide [] false)⟩ ∧
    parseArgs ["hide", "-r", "a1b2", "c3d4"] =
      .okTop ⟨false, some (.hide ["a1b2", "c3d4"] true)⟩ ∧
    parseArgs ["unhide", "a1b2", "-r"] =
      .okTop ⟨false, some (.unhide ["a1b2"] true)⟩ ∧
    parseArgs ["hide", "--rec", "a1b2"] =
      .okTop ⟨false, some (.hide ["a1b2"] true)⟩ ∧
    parseArgs ["hide", "-rr"] = .okTop ⟨false, some (.hide [] true)⟩ ∧
    (∀ (toks : List String) (out : List String) (r : Bool),
        (∀ t ∈ toks, setsRecursive t = false) →
        parseHideAux true toks false 0 [] false = .okSub (.hide out r) → r = false) ∧
    (∀ (toks : List String) (out : List String) (r : Bool),
        (∀ t ∈ toks, setsRecursive t = false) →
        parseHideAux false toks false 0 [] false = .okSub (.unhide out r) → r = false) ∧
    (∀ (handlers : Call → Int) (argv : List String) (hs : List String) (r : Bool),
        parseArgs argv = .okTop ⟨false, some (.hide hs r)⟩ →
        main handlers argv = .returns .nothing (handlers (.hide hs r)) [.hide hs r]) ∧
    (∀ (handlers : Call → Int) (argv : List String) (hs : List String) (r : Bool),
        parseArgs argv = .okTop ⟨false, some (.unhide hs r)⟩ →
        main handlers argv =
          .returns .nothing (handlers (.unhide hs r)) [.unhide hs r]) := by
  refine ⟨rfl, rfl, rfl, rfl, rfl, rfl, ?_, ?_, ?_, ?_⟩
  · intro toks out r hall h
    have := parseHideAux_rec_const true toks false 0 [] false (.hide out r) hall h
    simpa [subRec] using this
  · intro toks out r hall h
    have := parseHideAux_rec_const false toks false 0 [] false (.unhide out r) hall h
    simpa [subRec] using this
  · intro handlers argv hs r hp
    unfold main
    rw [hp]
    rfl
  · intro handlers argv hs r hp
    unfold main
    rw [hp]
    rfl

/-- C5 witness: a hash list without the flag parses with `recursive =
false`, and a concrete `hide -r x` invocation passes hashes and flag
through to the handler call. -/
theorem hide_unhide_passthrough_witness :
    (true : Bool) = true ∧
    main (fun _ => 6) ["hide", "-r", "abcd"] =
      .returns .nothing ((fun _ => (6 : Int)) (Call.hide ["abcd"] true))
        [Call.hide ["abcd"] true] ∧
    (false : Bool) = false :=
  ⟨rfl,
   hide_unhide_passthrough.2.2.2.2.2.2.2.2.1 (fun _ => 6) ["hide", "-r", "abcd"]
     ["abcd"] true rfl,
   hide_unhide_passthrough.2.2.2.2.2.2.1 ["abcd"] ["abcd"] false
     (by decide) rfl⟩


/-- One-step unfolding of the no-argument sub-parser on a cons cell. -/
theorem parseNoArg_cons (mk : SubCmd) (t : String) (rest : List String) :
    parseNoArg mk (t :: rest) =
      if t = "-h" || t = "--help" then SubOut.helpExit
      else SubOut.errExit := rfl

/-- One-step unfolding of the `prev` scanner on a cons cell. -/
theorem parsePrevAux_cons (t : String) (rest : List String) (dd : Bool)
    (num : Option Int) :
    parsePrevAux (t :: rest) dd num =
      if dd then
        (match num, parseIntTok t with
          | none, some v => parsePrevAux rest dd (some v)
          | _, _ => SubOut.errExit)
      else if t = "-h" || t = "--help" then SubOut.helpExit
      else if t = "--" then parsePrevAux rest true num
      else if isOptionTok t then SubOut.errExit
      else
        (match num, parseIntTok t with
          | none, some v => parsePrevAux rest dd (some v)
          | _, _ => SubOut.errExit) := rfl

/-- One-step unfolding of the `hook-post-rewrite` scanner on a cons cell. -/
theorem parseHookRewriteAux_cons (t : String) (rest : List String) (dd : Bool)
    (acc : Option String) :
    parseHookRewriteAux (t :: rest) dd acc =
      if dd then
        (match acc with
          | some _ => SubOut.errExit
          | none => parseHookRewriteAux rest dd (some t))
      else if t = "-h" || t = "--help" then SubOut.helpExit
      else if t = "--" then parseHookRewriteAux rest true acc
      else if isOptionTok t then SubOut.errExit
      else
        (match acc with
          | some _ => SubOut.errExit
          | none => parseHookRewriteAux rest dd (some t)) := rfl

/-- One-step unfolding of the `hook-post-checkout` scanner on a cons cell. -/
theorem parseHookCheckoutAux_cons (t : String) (rest : List String) (dd : Bool)
    (accRev : List String) :
    parseHookCheckoutAux (t :: rest) dd accRev =
      if dd then
        (if accRev.length ≥ 3 then SubOut.errExit
         else parseHookCheckoutAux rest dd (t :: accRev))
      else if t = "-h" || t = "--help" then SubOut.helpExit
      else if t = "--" then parseHookCheckoutAux rest true accRev
      else if isOptionTok t then SubOut.errExit
      else if accRev.length ≥ 3 then SubOut.errExit
      else parseHookCheckoutAux rest dd (t :: accRev) := rfl

/-- Splitting a help-token membership over a cons cell whose head is not a
help token. -/
theorem help_mem_rest {t : String} {rest : List String}
    (hm : "-h" ∈ t :: rest ∨ "--help" ∈ t :: rest)
    (hth : ¬ ((t = "-h" || t = "--help") = true)) :
    "-h" ∈ rest ∨ "--help" ∈ rest := by
  simp only [Bool.or_eq_true, decide_eq_true_eq, not_or] at hth
  obtain ⟨n1, n2⟩ := hth
  rcases hm with hm | hm <;> rcases List.mem_cons.mp hm with e | e
  · exact absurd e.symm n1
  · exact Or.inl e
  · exact absurd e.symm n2
  · exact Or.inr e

/-- Splitting a help-token membership over a cons cell whose head is
neither help token (disequality form). -/
theorem help_mem_rest2 {t : String} {rest : List String}
    (hm : "-h" ∈ t :: rest ∨ "--help" ∈ t :: rest)
    (h1 : t ≠ "-h") (h2 : t ≠ "--help") :
    "-h" ∈ rest ∨ "--help" ∈ rest := by
  rcases hm with hm | hm <;> rcases List.mem_cons.mp hm with e | e
  · exact absurd e.symm h1
  · exact Or.inl e
  · exact absurd e.symm h2
  · exact Or.inr e

/-- A no-argument sub-parser never succeeds on tokens containing a help
flag outside a `--` separator — the help action fires instead. -/
theorem parseNoArg_help_no_ok (mk : SubCmd) (toks : List String)
    (hm : "-h" ∈ toks ∨ "--help" ∈ toks) (hd : "--" ∉ toks) :
    ∀ sc, parseNoArg mk toks ≠ .okSub sc := by
  intro sc h
  cases toks with
  | nil => rcases hm with hm | hm <;> cases hm
  | cons t rest =>
    rw [parseNoArg_cons] at h
    by_cases hth : (t = "-h" || t = "--help") = true
    · rw [if_pos hth] at h; cases h
    · rw [if_neg hth] at h; cases h

/-- The `hide`/`unhide` scanner never succeeds on tokens containing a help
flag outside a `--` separator. -/
theorem parseHideAux_help_no_ok (isHide : Bool) (toks : List String) :
    ∀ (mode : Nat) (hs : List String) (recAcc : Bool),
    ("-h" ∈ toks ∨ "--help" ∈ toks) → "--" ∉ toks →
    ∀ sc, parseHideAux isHide toks false mode hs recAcc ≠ .okSub sc := by
  induction toks with
  | nil => intro mode hs recAcc hm _ sc h; rcases hm with hm | hm <;> cases hm
  | cons t rest ih =>
    intro mode hs recAcc hm hd sc h
    have hdt : t ≠ "--" := fun e => hd (by rw [e]; exact List.mem_cons_self _ _)
    have hdr : "--" ∉ rest := fun e => hd (List.mem_cons_of_mem _ e)
    by_cases ht1 : t = "-h"
    · subst ht1
      have he : parseHideAux isHide ("-h" :: rest) false mode hs recAcc =
          .helpExit := rfl
      rw [he] at h
      cases h
    by_cases ht2 : t = "--help"
    · subst ht2
      have he : parseHideAux isHide ("--help" :: rest) false mode hs recAcc =
          .helpExit := rfl
      rw [he] at h
      cases h
    have hmr := help_mem_rest2 hm ht1 ht2
    rw [parseHideAux_cons] at h
    rw [if_neg (by simp : ¬ ((false : Bool) = true))] at h
    rw [if_neg hdt] at h
    by_cases hlt : isLongTok t = true
    · rw [if_pos hlt] at h
      by_cases hH : longOptMatches hideLongNames t = ["help"]
      · rw [if_pos hH] at h; cases h
      · rw [if_neg hH] at h
        by_cases hR : longOptMatches hideLongNames t = ["recursive"]
        · rw [if_pos hR] at h
          exact ih (if mode = 1 then 2 else mode) hs true hmr hdr sc h
        · rw [if_neg hR] at h; cases h
    · rw [if_neg hlt] at h
      by_cases hst : isShortTok t = true
      · rw [if_pos hst] at h
        cases hhs : hideShorts (t.data.drop 1) recAcc with
        | okS r2 =>
          rw [hhs] at h
          exact ih (if mode = 1 then 2 else mode) hs r2 hmr hdr sc h
        | helpS => rw [hhs] at h; cases h
        | errS => rw [hhs] at h; cases h
      · rw [if_neg hst] at h
        by_cases hm2 : mode = 2
        · rw [if_pos hm2] at h; cases h
        · rw [if_neg hm2] at h
          exact ih 1 (t :: hs) recAcc hmr hdr sc h

/-- The `prev` scanner never succeeds on tokens containing a help flag
outside a `--` separator. -/
theorem parsePrevAux_help_no_ok (toks : List String) :
    ∀ (num : Option Int),
    ("-h" ∈ toks ∨ "--help" ∈ toks) → "--" ∉ toks →
    ∀ sc, parsePrevAux toks false num ≠ .okSub sc := by
  induction toks with
  | nil => intro num hm _ sc h; rcases hm with hm | hm <;> cases hm
  | cons t rest ih =>
    intro num hm hd sc h
    have hdt : t ≠ "--" := fun e => hd (by rw [e]; exact List.mem_cons_self _ _)
    have hdr : "--" ∉ rest := fun e => hd (List.mem_cons_of_mem _ e)
    rw [parsePrevAux_cons] at h
    rw [if_neg (by simp : ¬ ((false : Bool) = true))] at h
    by_cases hth : (t = "-h" || t = "--help") = true
    · rw [if_pos hth] at h; cases h
    · rw [if_neg hth] at h
      have hmr := help_mem_rest hm hth
      rw [if_neg hdt] at h
      by_cases hop : isOptionTok t = true
      · rw [if_pos hop] at h; cases h
      · rw [if_neg hop] at h
        cases num with
        | some v => cases h
        | none =>
          cases hpt : parseIntTok t with
          | some v => rw [hpt] at h; exact ih (some v) hmr hdr sc h
          | none => rw [hpt] at h; cases h

/-- The `next` scanner never succeeds on tokens containing a help flag
outside a `--` separator. -/
theorem parseNextAux_help_no_ok (toks : List String) :
    ∀ (num : Option Int) (tw : Option Towards),
    ("-h" ∈ toks ∨ "--help" ∈ toks) → "--" ∉ toks →
    ∀ sc, parseNextAux toks false num tw ≠ .okSub sc := by
  induction toks with
  | nil => intro num tw hm _ sc h; rcases hm with hm | hm <;> cases hm
  | cons t rest ih =>
    intro num tw hm hd sc h
    have hdt : t ≠ "--" := fun e => hd (by rw [e]; exact List.mem_cons_self _ _)
    have hdr : "--" ∉ rest := fun e => hd (List.mem_cons_of_mem _ e)
    by_cases ht1 : t = "-h"
    · subst ht1
      have he : parseNextAux ("-h" :: rest) false num tw = .helpExit := rfl
      rw [he] at h
      cases h
    by_cases ht2 : t = "--help"
    · subst ht2
      have he : parseNextAux ("--help" :: rest) false num tw = .helpExit := rfl
      rw [he] at h
      cases h
    have hmr := help_mem_rest2 hm ht1 ht2
    rw [parseNextAux_cons] at h
    rw [if_neg (by simp : ¬ ((false : Bool) = true))] at h
    rw [if_neg hdt] at h
    by_cases hlt : isLongTok t = true
    · rw [if_pos hlt] at h
      by_cases hH : longOptMatches nextLongNames t = ["help"]
      · rw [if_pos hH] at h; cases h
      · rw [if_neg hH] at h
        by_cases hO : longOptMatches nextLongNames t = ["oldest"]
        · rw [if_pos hO] at h
          cases tw with
          | none => exact ih num (some .oldest) hmr hdr sc h
          | some tv =>
            cases tv with
            | oldest => exact ih num (some .oldest) hmr hdr sc h
            | newest => cases h
        · rw [if_neg hO] at h
          by_cases hN : longOptMatches nextLongNames t = ["newest"]
          · rw [if_pos hN] at h
            cases tw with
            | none => exact ih num (some .newest) hmr hdr sc h
            | some tv =>
              cases tv with
              | oldest => cases h
              | newest => exact ih num (some .newest) hmr hdr sc h
          · rw [if_neg hN] at h; cases h
    · rw [if_neg hlt] at h
      by_cases hst : isShortTok t = true
      · rw [if_pos hst] at h
        cases hns : nextShorts (t.data.drop 1) tw with
        | okS tw2 => rw [hns] at h; exact ih num tw2 hmr hdr sc h
        | helpS => rw [hns] at h; cases h
        | errS => rw [hns] at h; cases h
      · rw [if_neg hst] at h
        cases num with
        | some v => cases h
        | none =>
          cases hpt : parseIntTok t with
          | some v => rw [hpt] at h; exact ih (some v) tw hmr hdr sc h
          | none => rw [hpt] at h; cases h

/-- The `hook-post-rewrite` scanner never succeeds on tokens containing a
help flag outside a `--` separator. -/
theorem parseHookRewriteAux_help_no_ok (toks : List String) :
    ∀ (acc : Option String),
    ("-h" ∈ toks ∨ "--help" ∈ toks) → "--" ∉ toks →
    ∀ sc, parseHookRewriteAux toks false acc ≠ .okSub sc := by
  induction toks with
  | nil => intro acc hm _ sc h; rcases hm with hm | hm <;> cases hm
  | cons t rest ih =>
    intro acc hm hd sc h
    have hdt : t ≠ "--" := fun e => hd (by rw [e]; exact List.mem_cons_self _ _)
    have hdr : "--" ∉ rest := fun e => hd (List.mem_cons_of_mem _ e)
    rw [parseHookRewriteAux_cons] at h
    rw [if_neg (by simp : ¬ ((false : Bool) = true))] at h
    by_cases hth : (t = "-h" || t = "--help") = true
    · rw [if_pos hth] at h; cases h
    · rw [if_neg hth] at h
      have hmr := help_mem_rest hm hth
      rw [if_neg hdt] at h
      by_cases hop : isOptionTok t = true
      · rw [if_pos hop] at h; cases h
      · rw [if_neg hop] at h
        cases acc with
        | some v => cases h
        | none => exact ih (some t) hmr hdr sc h

/-- The `hook-post-checkout` scanner never succeeds on tokens containing a
help flag outside a `--` separator. -/
theorem parseHookCheckoutAux_help_no_ok (toks : List String) :
    ∀ (accRev : List String),
    ("-h" ∈ toks ∨ "--help" ∈ toks) → "--" ∉ toks →
    ∀ sc, parseHookCheckoutAux toks false accRev ≠ .okSub sc := by
  induction toks with
  | nil => intro accRev hm _ sc h; rcases hm with hm | hm <;> cases hm
  | cons t rest ih =>
    intro accRev hm hd sc h
    have hdt : t ≠ "--" := fun e => hd (by rw [e]; exact List.mem_cons_self _ _)
    have hdr : "--" ∉ rest := fun e => hd (List.mem_cons_of_mem _ e)
    rw [parseHookCheckoutAux_cons] at h
    rw [if_neg (by simp : ¬ ((false : Bool) = true))] at h
    by_cases hth : (t = "-h" || t = "--help") = true
    · rw [if_pos hth] at h; cases h
    · rw [if_neg hth] at h
      have hmr := help_mem_rest hm hth
      rw [if_neg hdt] at h
      by_cases hop : isOptionTok t = true
      · rw [if_pos hop] at h; cases h
      · rw [if_neg hop] at h
        by_cases hlen : accRev.length ≥ 3
        · rw [if_pos hlen] at h; cases h
        · rw [if_neg hlen] at h
          exact ih (t :: accRev) hmr hdr sc h

/-- No sub-parser succeeds on tokens containing a help flag outside a `--`
separator: the sub-parser's default help action fires (or parsing errors)
first. -/
theorem parseSubTokens_help_no_ok (name : String) (rest : List String)
    (hm : "-h" ∈ rest ∨ "--help" ∈ rest) (hd : "--" ∉ rest) :
    ∀ sc, parseSubTokens name rest ≠ some (.okSub sc) := by
  intro sc h
  unfold parseSubTokens at h
  by_cases e1 : name = "init"
  · rw [if_pos e1] at h; injection h with h
    exact parseNoArg_help_no_ok _ rest hm hd sc h
  rw [if_neg e1] at h
  by_cases e2 : name = "smartlog"
  · rw [if_pos e2] at h; injection h with h
    exact parseNoArg_help_no_ok _ rest hm hd sc h
  rw [if_neg e2] at h
  by_cases e3 : name = "sl"
  · rw [if_pos e3] at h; injection h with h
    exact parseNoArg_help_no_ok _ rest hm hd sc h
  rw [if_neg e3] at h
  by_cases e4 : name = "hide"
  · rw [if_pos e4] at h; injection h with h
    exact parseHideAux_help_no_ok true rest 0 [] false hm hd sc h
  rw [if_neg e4] at h
  by_cases e5 : name = "unhide"
  · rw [if_pos e5] at h; injection h with h
    exact parseHideAux_help_no_ok false rest 0 [] false hm hd sc h
  rw [if_neg e5] at h
  by_cases e6 : name = "prev"
  · rw [if_pos e6] at h; injection h with h
    exact parsePrevAux_help_no_ok rest none hm hd sc h
  rw [if_neg e6] at h
  by_cases e7 : name = "next"
  · rw [if_pos e7] at h; injection h with h
    exact parseNextAux_help_no_ok rest none none hm hd sc h
  rw [if_neg e7] at h
  by_cases e8 : name = "restack"
  · rw [if_pos e8] at h; injection h with h
    exact parseNoArg_help_no_ok _ rest hm hd sc h
  rw [if_neg e8] at h
  by_cases e9 : name = "undo"
  · rw [if_pos e9] at h; injection h with h
    exact parseNoArg_help_no_ok _ rest hm hd sc h
  rw [if_neg e9] at h
  by_cases e10 : name = "hook-post-rewrite"
  · rw [if_pos e10] at h; injection h with h
    exact parseHookRewriteAux_help_no_ok rest none hm hd sc h
  rw [if_neg e10] at h
  by_cases e11 : name = "hook-post-checkout"
  · rw [if_pos e11] at h; injection h with h
    exact parseHookCheckoutAux_help_no_ok rest [] hm hd sc h
  rw [if_neg e11] at h
  by_cases e12 : name = "hook-post-commit"
  · rw [if_pos e12] at h; injection h with h
    exact parseNoArg_help_no_ok _ rest hm hd sc h
  rw [if_neg e12] at h
  cases h


/-- One-step unfolding of the top-level scanner on a cons cell. -/
theorem parseTopAux_cons (t : String) (rest : List String) (help : Bool) :
    parseTopAux (t :: rest) help =
      if t = "-h" || t = "--help" then parseTopAux rest true
      else if t = "--" then ParseOut.errTop
      else if isOptionTok t then ParseOut.errTop
      else dispatchSub help t rest := rfl

/-- Once the top-level help accumulator is set, any successful parse
reports `help = true`. -/
theorem parseTopAux_help_true (argv : List String) :
    ∀ a, parseTopAux argv true = .okTop a → a.help = true := by
  induction argv with
  | nil => intro a h; cases h; rfl
  | cons t rest ih =>
    intro a h
    rw [parseTopAux_cons] at h
    by_cases hth : (t = "-h" || t = "--help") = true
    · rw [if_pos hth] at h; exact ih a h
    · rw [if_neg hth] at h
      by_cases hx : t = "--"
      · rw [if_pos hx] at h; cases h
      · rw [if_neg hx] at h
        by_cases hop : isOptionTok t = true
        · rw [if_pos hop] at h; cases h
        · rw [if_neg hop] at h
          obtain ⟨sc, -, ha⟩ := dispatchSub_okTop h
          rw [ha]

/-- If the argv contains a help flag and no `--` separator, any successful
parse reports `help = true` (a help token after the subcommand would have
triggered the sub-parser help action instead of a successful parse). -/
theorem parseArgs_help_mem (argv : List String) :
    ∀ a, "--" ∉ argv → ("-h" ∈ argv ∨ "--help" ∈ argv) →
    parseArgs argv = .okTop a → a.help = true := by
  induction argv with
  | nil => intro a _ hm _; rcases hm with hm | hm <;> cases hm
  | cons t rest ih =>
    intro a hd hm h
    have hdt : t ≠ "--" := fun e => hd (by rw [e]; exact List.mem_cons_self _ _)
    have hdr : "--" ∉ rest := fun e => hd (List.mem_cons_of_mem _ e)
    unfold parseArgs at h
    rw [parseTopAux_cons] at h
    by_cases hth : (t = "-h" || t = "--help") = true
    · rw [if_pos hth] at h
      exact parseTopAux_help_true rest a h
    · rw [if_neg hth] at h
      have hmr := help_mem_rest hm hth
      rw [if_neg hdt] at h
      by_cases hop : isOptionTok t = true
      · rw [if_pos hop] at h; cases h
      · rw [if_neg hop] at h
        obtain ⟨sc, hsc, -⟩ := dispatchSub_okTop h
        exact absurd hsc (parseSubTokens_help_no_ok t rest hmr hdr sc)

/-- C9 counterexample: an argv containing `-h` after the `--` separator
parses successfully with the token as positional data — `main` runs the
`hide` handler and returns its code, rather than printing help and
returning 0. -/
theorem help_flag_precedence_cex :
    "-h" ∈ ["hide", "--", "-h"] ∧
    main (fun _ => 7) ["hide", "--", "-h"] =
      .returns .nothing 7 [Call.hide ["-h"] false] ∧
    MainBehavior.returns .nothing 7 [Call.hide ["-h"] false] ≠
      .returns .helpText 0 [] :=
  ⟨by decide, rfl, by decide⟩

/-- C9 (amended): `-h`/`--help` takes precedence whenever it is parsed as a
flag — for every argv containing a help token and no `--` separator, a
successful parse makes `main` print the help text and return 0 without
invoking any handler; a help token demoted to positional data by `--` is
exempt. -/
theorem help_flag_precedence_amended (handlers : Call → Int)
    (argv : List String) (a : Args)
    (hd : "--" ∉ argv) (hm : "-h" ∈ argv ∨ "--help" ∈ argv)
    (hp : parseArgs argv = .okTop a) :
    main handlers argv = .returns .helpText 0 [] := by
  have hh := parseArgs_help_mem argv a hd hm hp
  obtain ⟨ah, asub⟩ := a
  have hh2 : ah = true := hh
  subst hh2
  unfold main
  rw [hp]
  rfl

/-- C9 witness: the amended precedence at the concrete argv `[-h]`. -/
theorem help_flag_precedence_witness :
    main (fun _ => 7) ["-h"] = .returns .helpText 0 [] :=
  help_flag_precedence_amended (fun _ => 7) ["-h"] ⟨true, none⟩
    (by decide) (Or.inl (by decide)) rfl


/-! ## Restack core (spec-modelled)

The restack engine itself (`restack.py` and the event-log machinery it
uses) is not part of the repository snapshot; only its caller is.  The
definitions below are modelled from the specification: §3 (data model,
rewrite map), §4.3 (visibility resolver: reachability default,
`Hide`/`Unhide` fold, supersession), §4.4 (rewrite tracker / abandoned
commits, in the glossary's
transitive sense: a visible commit whose ancestor chain contains a stale
parent edge), §4.5 (restack planner/executor), §8 (idempotence property).
Commits are single-(first-)parent, oids are naturals, and the fresh oids
the backend mints for replayed commits are drawn from a counter. -/

/-- Modelled from the spec: one event record of the append-only log
(§3 Event; only `CommitRewrite` matters to the rewrite tracker). -/
inductive Event where
  | refUpdate (refName : String) (oldOid newOid : Nat)
  | commitRewrite (oldOid newOid : Nat)
  | checkoutEv (oldOid newOid : Nat)
  | hideEv (oid : Nat) (recursive : Bool)
  | unhideEv (oid : Nat) (recursive : Bool)
deriving DecidableEq, Repr

/-- Modelled from the spec: repository snapshot plus log — the commit
graph as (oid, first-parent) pairs, the named refs (branches and HEAD),
the event log, and the backend's fresh-oid supply. -/
structure RepoState where
  commits : List (Nat × Option Nat)
  refs : List (String × Nat)
  events : List Event
  nextOid : Nat
deriving DecidableEq, Repr

/-- First-match association-list lookup. -/
def lookupA {α : Type} : List (Nat × α) → Nat → Option α
  | [], _ => none
  | (k, v) :: rest, x => if k = x then some v else lookupA rest x

/-- Modelled from the spec: folding one `CommitRewrite old → new` record
into the rewrite map — later events override earlier ones for the same old
oid, and existing entries whose value is `old` are collapsed forward to
`new` (old→mid→new becomes old→new). -/
def rmInsert (m : List (Nat × Nat)) (a b : Nat) : List (Nat × Nat) :=
  (m.filter (fun kv => kv.1 ≠ a)).map (fun kv => (kv.1, if kv.2 = a then b else kv.2)) ++ [(a, b)]

/-- Modelled from the spec: the rewrite map, built by folding
`CommitRewrite` events in log order (§3). -/
def rewriteMap (evs : List Event) : List (Nat × Nat) :=
  evs.foldl
    (fun m e =>
      match e with
      | .commitRewrite a b => rmInsert m a b
      | _ => m)
    []

/-- Parent edge of a commit in the graph (none for roots and for oids not
in the graph). -/
def parentOf (s : RepoState) (o : Nat) : Option Nat :=
  match lookupA s.commits o with
  | some po => po
  | none => none

/-- Fuel bound for walks over the commit graph. -/
def graphFuel (s : RepoState) : Nat :=
  s.commits.length

/-- The first-parent ancestor chain from `o` (inclusive), cut off at
`fuel` steps. -/
def chainList (s : RepoState) : Nat → Nat → List Nat
  | 0, o => [o]
  | fuel + 1, o =>
    o :: (match parentOf s o with
          | some p => chainList s fuel p
          | none => [])

/-- Modelled from the spec: the visibility resolver's reachability
default (§4.3 step 1) — a commit defaults to Visible when it is reachable
from a named ref or HEAD by parent edges. -/
def reachableB (s : RepoState) (o : Nat) : Bool :=
  s.refs.any (fun r => decide (o ∈ chainList s (graphFuel s) r.2))

/-- A strict descendant within the graph: `x` is a descendant of `o` when
`o` lies on `x`'s first-parent ancestor chain and differs from it. -/
def isDescB (s : RepoState) (o x : Nat) : Bool :=
  decide (x ≠ o) && decide (o ∈ chainList s (graphFuel s) x)

/-- Modelled from the spec: folding one event of §4.3 step 2 into the
visibility assignment — a `Hide` forces the commit (and, when the
recursive flag is recorded on the event, its current descendants within
the graph) to Hidden, an `Unhide` to Visible, and every other event kind
leaves the assignment unchanged. -/
def visApply (s : RepoState) (e : Event) (vis : Nat → Bool) : Nat → Bool :=
  match e with
  | .hideEv o r => fun x => if x = o || (r && isDescB s o x) then false else vis x
  | .unhideEv o r => fun x => if x = o || (r && isDescB s o x) then true else vis x
  | _ => vis

/-- §4.3 step 2: fold the `Hide`/`Unhide` events in log order (later
events win over earlier ones for the same oid). -/
def visFold (s : RepoState) : List Event → (Nat → Bool) → Nat → Bool
  | [], vis => vis
  | e :: rest, vis => visFold s rest (visApply s e vis)

/-- Modelled from the spec: the full visibility resolver (§4.3) — step 1
defaults every commit reachable from a ref to Visible and all others to
Hidden, step 2 folds the `Hide`/`Unhide` events in log order, and step 3
applies supersession: an oid that the rewrite map sends to a distinct
Visible successor is forced to Hidden regardless of steps 1–2, unless it
is independently reachable from a ref. -/
def visibleB (s : RepoState) (x : Nat) : Bool :=
  if reachableB s x then visFold s s.events (fun o => reachableB s o) x
  else
    match lookupA (rewriteMap s.events) x with
    | some y =>
      if decide (y ≠ x) && visFold s s.events (fun o => reachableB s o) y then false
      else visFold s s.events (fun o => reachableB s o) x
    | none => visFold s s.events (fun o => reachableB s o) x

/-- No `Hide`/`Unhide` event occurs in the log. -/
def noHideEvents (s : RepoState) : Bool :=
  s.events.all (fun e =>
    match e with
    | Event.hideEv _ _ => false
    | Event.unhideEv _ _ => false
    | _ => true)

/-- Modelled from the spec: a stale parent edge (§4.4) — the commit's
parent oid is a key of the rewrite map whose mapped value differs from the
parent edge itself. -/
def staleB (s : RepoState) (o : Nat) : Bool :=
  match parentOf s o with
  | none => false
  | some p =>
    match lookupA (rewriteMap s.events) p with
    | none => false
    | some q => decide (q ≠ p)

/-- Modelled from the spec: a stale ancestor chain — some commit on the
first-parent chain from `o` (inclusive) has a stale parent edge. -/
def chainStaleB (s : RepoState) : Nat → Nat → Bool
  | 0, _ => false
  | fuel + 1, o =>
    staleB s o ||
      (match parentOf s o with
       | some p => chainStaleB s fuel p
       | none => false)

/-- Modelled from the spec: an abandoned commit (glossary): a Visible
commit whose ancestor was rewritten after it was created, leaving its
chain attached to a stale parent edge. -/
def abandonedB (s : RepoState) (o : Nat) : Bool :=
  visibleB s o && chainStaleB s (graphFuel s + 1) o

/-- Modelled from the spec: the restack plan — the abandoned commits, in
graph order (§4.5). -/
def plan (s : RepoState) : List Nat :=
  (s.commits.map Prod.fst).filter (fun o => abandonedB s o)

/-- Assign consecutive fresh oids (starting at `n`) to the planned
commits. -/
def assignFresh : List Nat → Nat → List (Nat × Nat)
  | [], _ => []
  | o :: r, n => (o, n) :: assignFresh r (n + 1)

/-- The plan with the fresh oid each replayed commit will receive. -/
def planFresh (s : RepoState) : List (Nat × Nat) :=
  assignFresh (plan s) s.nextOid

/-- Follow the rewrite map to its latest oid (fuel-bounded; self-mapping
entries stop the walk). -/
def followMap (m : List (Nat × Nat)) : Nat → Nat → Nat
  | 0, x => x
  | fuel + 1, x =>
    match lookupA m x with
    | none => x
    | some y => if y = x then x else followMap m fuel y

/-- Modelled from the spec: the new target parent of a replayed commit
(§4.5) — follow the rewrite map to the latest live oid, and where that oid
was itself abandoned and repaired in this same plan, use its repaired
(fresh) incarnation. -/
def finalTarget (s : RepoState) (x : Nat) : Nat :=
  match lookupA (planFresh s) x with
  | some fx => fx
  | none =>
    let y := followMap (rewriteMap s.events) ((rewriteMap s.events).length + 1) x
    match lookupA (planFresh s) y with
    | some fy => fy
    | none => y

/-- The replayed commit's parent: its old parent mapped through
`finalTarget`. -/
def newParent (s : RepoState) (o : Nat) : Option Nat :=
  (parentOf s o).map (finalTarget s)

/-- Modelled from the spec: the restack planner/executor (§4.5) in closed
form — every abandoned commit is replayed as a fresh commit onto the final
incarnation of its parent, a `CommitRewrite old → fresh` event is appended
for each replay, and every ref that pointed at a replayed commit is
updated to its fresh incarnation.  (Replays are conflict-free: the backend
`replay_commit` collaborator is modelled as always succeeding.) -/
def restack (s : RepoState) : RepoState :=
  { commits := s.commits ++ (planFresh s).map (fun of => (of.2, newParent s of.1))
    refs := s.refs.map (fun r =>
      (r.1, match lookupA (planFresh s) r.2 with
            | some f => f
            | none => r.2))
    events := s.events ++ (planFresh s).map (fun of => Event.commitRewrite of.1 of.2)
    nextOid := s.nextOid + (plan s).length }

/-- The spec's data-model invariants (§3) for a repository snapshot:
distinct oids, parent edges into the graph, an acyclicity rank, and a
fresh-oid supply strictly above every oid the graph or the rewrite map
mentions, with the rewrite map fully collapsed (§4.4: "chains are fully
collapsed before use"). -/
structure WellFormed (s : RepoState) : Prop where
  nodup : (s.commits.map Prod.fst).Nodup
  parentsClosed : ∀ c ∈ s.commits,
    match c.2 with
    | some p => p ∈ s.commits.map Prod.fst
    | none => True
  ranked : ∃ rank : Nat → Nat,
    (∀ c ∈ s.commits,
      match c.2 with
      | some p => rank p < rank c.1
      | none => True) ∧
    (∀ c ∈ s.commits, rank c.1 < s.commits.length)
  oidsLt : ∀ c ∈ s.commits, c.1 < s.nextOid
  refsLt : ∀ r ∈ s.refs, r.2 < s.nextOid
  mapLt : ∀ kv ∈ rewriteMap s.events, kv.1 < s.nextOid ∧ kv.2 < s.nextOid
  collapsed : ∀ kv ∈ rewriteMap s.events,
    lookupA (rewriteMap s.events) kv.2 = none ∨
    lookupA (rewriteMap s.events) kv.2 = some kv.2

/-- Every oid the rewrite map rewrites *to* is itself current: its
ancestor chain contains no stale parent edge.  (This is the proviso under
which restack is idempotent; the counterexample state below violates it.) -/
def TargetsCurrent (s : RepoState) : Prop :=
  ∀ kv ∈ rewriteMap s.events, chainStaleB s (graphFuel s + 1) kv.2 = false

/-- A state violating `TargetsCurrent`: ref `main` → commit 2 with parent
0; the log rewrote 0 → 3, but 3 (unreachable) has parent 1, itself
rewritten 1 → 4.  The first restack replays 2 onto 3; only then does 3
become reachable, so the second run finds it abandoned and replays again. -/
def cexState : RepoState :=
  { commits := [(0, none), (1, none), (2, some 0), (3, some 1), (4, none)]
    refs := [("main", 2)]
    events := [Event.commitRewrite 0 3, Event.commitRewrite 1 4]
    nextOid := 5 }

/-- A well-formed state with a current rewrite target: ref `main` →
commit 1 with parent 0, and the log rewrote 0 → 3. -/
def wfState : RepoState :=
  { commits := [(0, none), (1, some 0), (3, none)]
    refs := [("main", 1)]
    events := [Event.commitRewrite 0 3]
    nextOid := 4 }


/-! ### Association-list lemmas -/

theorem lookupA_eq_none {α : Type} (l : List (Nat × α)) (k : Nat) :
    lookupA l k = none ↔ k ∉ l.map Prod.fst := by
  induction l with
  | nil => simp [lookupA]
  | cons c rest ih =>
    obtain ⟨a, v⟩ := c
    simp only [lookupA, List.map_cons, List.mem_cons]
    by_cases h : a = k
    · subst h
      simp
    · rw [if_neg h, ih]
      constructor
      · intro hn
        rintro (e | e)
        · exact h e.symm
        · exact hn e
      · intro hn e
        exact hn (Or.inr e)

theorem lookupA_mem {α : Type} {l : List (Nat × α)} {k : Nat} {v : α}
    (h : lookupA l k = some v) : (k, v) ∈ l := by
  induction l with
  | nil => cases h
  | cons c rest ih =>
    obtain ⟨a, w⟩ := c
    simp only [lookupA] at h
    by_cases ha : a = k
    · rw [if_pos ha] at h
      injection h with h
      subst ha; subst h
      exact List.mem_cons_self _ _
    · rw [if_neg ha] at h
      exact List.mem_cons_of_mem _ (ih h)

theorem lookupA_append_some {α : Type} {l1 : List (Nat × α)} (l2 : List (Nat × α))
    {k : Nat} {v : α} (h : lookupA l1 k = some v) :
    lookupA (l1 ++ l2) k = some v := by
  induction l1 with
  | nil => cases h
  | cons c rest ih =>
    obtain ⟨a, w⟩ := c
    simp only [lookupA] at h ⊢
    by_cases ha : a = k
    · rw [if_pos ha] at h ⊢; exact h
    · rw [if_neg ha] at h ⊢; exact ih h

theorem lookupA_append_none {α : Type} {l1 : List (Nat × α)} (l2 : List (Nat × α))
    {k : Nat} (h : lookupA l1 k = none) :
    lookupA (l1 ++ l2) k = lookupA l2 k := by
  induction l1 with
  | nil => rfl
  | cons c rest ih =>
    obtain ⟨a, w⟩ := c
    simp only [lookupA] at h ⊢
    by_cases ha : a = k
    · rw [if_pos ha] at h; cases h
    · rw [if_neg ha] at h ⊢; exact ih h

theorem lookupA_map_val {α β : Type} (vf : α → β) (l : List (Nat × α)) (k : Nat) :
    lookupA (l.map (fun kv => (kv.1, vf kv.2))) k = (lookupA l k).map vf := by
  induction l with
  | nil => rfl
  | cons c rest ih =>
    obtain ⟨a, w⟩ := c
    simp only [List.map_cons, lookupA]
    by_cases ha : a = k
    · rw [if_pos ha, if_pos ha]; rfl
    · rw [if_neg ha, if_neg ha]; exact ih

theorem lookupA_filter_key {α : Type} (l : List (Nat × α)) (a k : Nat) (h : k ≠ a) :
    lookupA (l.filter (fun kv => kv.1 ≠ a)) k = lookupA l k := by
  induction l with
  | nil => rfl
  | cons c rest ih =>
    obtain ⟨b, w⟩ := c
    by_cases hb : b = a
    · have : (decide ((b, w).1 ≠ a)) = false := by simp [hb]
      rw [List.filter_cons_of_neg (by simp [hb])]
      have hbk : ¬ b = k := fun e => h (by rw [← e, hb])
      simp only [lookupA, if_neg hbk]
      exact ih
    · rw [List.filter_cons_of_pos (by simp [hb])]
      simp only [lookupA]
      by_cases hbk : b = k
      · rw [if_pos hbk, if_pos hbk]
      · rw [if_neg hbk, if_neg hbk]; exact ih

theorem rmInsert_lookup_other {m : List (Nat × Nat)} {a b k : Nat} (h : k ≠ a) :
    lookupA (rmInsert m a b) k =
      (lookupA m k).map (fun v => if v = a then b else v) := by
  unfold rmInsert
  cases hl : lookupA ((m.filter (fun kv => kv.1 ≠ a)).map
      (fun kv => (kv.1, if kv.2 = a then b else kv.2))) k with
  | some v =>
    rw [lookupA_append_some _ hl]
    rw [lookupA_map_val (fun v => if v = a then b else v) (m.filter (fun kv => kv.1 ≠ a)) k,
      lookupA_filter_key m a k h] at hl
    exact hl.symm
  | none =>
    rw [lookupA_append_none _ hl]
    rw [lookupA_map_val (fun v => if v = a then b else v) (m.filter (fun kv => kv.1 ≠ a)) k,
      lookupA_filter_key m a k h] at hl
    cases hm : lookupA m k with
    | some v => rw [hm] at hl; cases hl
    | none =>
      simp only [lookupA]
      rw [if_neg (fun e => h e.symm)]
      rfl


/-! ### Fresh-oid assignment lemmas -/

theorem assignFresh_keys (L : List Nat) : ∀ n, (assignFresh L n).map Prod.fst = L := by
  induction L with
  | nil => intro n; rfl
  | cons o r ih => intro n; simp only [assignFresh, List.map_cons, ih]

theorem assignFresh_mem_bounds {L : List Nat} :
    ∀ {n o f}, (o, f) ∈ assignFresh L n → o ∈ L ∧ n ≤ f := by
  induction L with
  | nil => intro n o f h; cases h
  | cons a r ih =>
    intro n o f h
    rcases List.mem_cons.mp h with e | e
    · injection e with e1 e2
      subst e1; subst e2
      exact ⟨List.mem_cons_self _ _, Nat.le_refl _⟩
    · obtain ⟨h1, h2⟩ := ih e
      exact ⟨List.mem_cons_of_mem _ h1, Nat.le_of_succ_le h2⟩

theorem assignFresh_lookup_mem {L : List Nat} :
    ∀ {n o}, o ∈ L → ∃ f, lookupA (assignFresh L n) o = some f := by
  induction L with
  | nil => intro n o h; cases h
  | cons a r ih =>
    intro n o h
    simp only [assignFresh, lookupA]
    by_cases ha : a = o
    · exact ⟨n, by rw [if_pos ha]⟩
    · rw [if_neg ha]
      exact ih ((List.mem_cons.mp h).resolve_left (fun e => ha e.symm))

theorem assignFresh_news_lookup {β : Type} (g : Nat → β) {L : List Nat} :
    ∀ {n o f}, (o, f) ∈ assignFresh L n →
    lookupA ((assignFresh L n).map (fun of => (of.2, g of.1))) f = some (g o) := by
  induction L with
  | nil => intro n o f h; cases h
  | cons a r ih =>
    intro n o f h
    simp only [assignFresh, List.map_cons, lookupA]
    rcases List.mem_cons.mp h with e | e
    · injection e with e1 e2
      subst e1; subst e2
      rw [if_pos rfl]
    · have hb := (assignFresh_mem_bounds e).2
      rw [if_neg (by omega : ¬ n = f)]
      exact ih e

theorem assignFresh_news_lookup_lt {β : Type} (g : Nat → β) {L : List Nat} :
    ∀ {n k}, k < n →
    lookupA ((assignFresh L n).map (fun of => (of.2, g of.1))) k = none := by
  induction L with
  | nil => intro n k _; rfl
  | cons a r ih =>
    intro n k h
    simp only [assignFresh, List.map_cons, lookupA]
    rw [if_neg (by omega : ¬ n = k)]
    exact ih (by omega)

/-! ### Rewrite-map fold lemmas -/

theorem foldCR_none (pfl : List (Nat × Nat)) :
    ∀ (m : List (Nat × Nat)) (k : Nat), (∀ of ∈ pfl, of.1 ≠ k) →
    lookupA m k = none →
    lookupA (pfl.foldl (fun m of => rmInsert m of.1 of.2) m) k = none := by
  induction pfl with
  | nil => intro m k _ h; exact h
  | cons c rest ih =>
    intro m k hne h
    simp only [List.foldl_cons]
    refine ih _ k (fun of hof => hne of (List.mem_cons_of_mem _ hof)) ?_
    rw [rmInsert_lookup_other (fun e => hne c (List.mem_cons_self _ _) e.symm)]
    rw [h]
    rfl

theorem foldCR_self (pfl : List (Nat × Nat)) :
    ∀ (m : List (Nat × Nat)) (k : Nat), (∀ of ∈ pfl, of.1 ≠ k) →
    lookupA m k = some k →
    lookupA (pfl.foldl (fun m of => rmInsert m of.1 of.2) m) k = some k := by
  induction pfl with
  | nil => intro m k _ h; exact h
  | cons c rest ih =>
    intro m k hne h
    simp only [List.foldl_cons]
    refine ih _ k (fun of hof => hne of (List.mem_cons_of_mem _ hof)) ?_
    rw [rmInsert_lookup_other (fun e => hne c (List.mem_cons_self _ _) e.symm)]
    rw [h]
    show some (if k = c.1 then c.2 else k) = some k
    rw [if_neg (fun e => hne c (List.mem_cons_self _ _) e.symm)]

theorem rewriteMap_append_crs (evs : List Event) (l : List (Nat × Nat)) :
    rewriteMap (evs ++ l.map (fun of => Event.commitRewrite of.1 of.2)) =
      l.foldl (fun m of => rmInsert m of.1 of.2) (rewriteMap evs) := by
  unfold rewriteMap
  rw [List.foldl_append, List.foldl_map]


/-! ### Ancestor chains -/

/-- `OnChain s a d`: `d` lies on the first-parent ancestor chain from `a`
(inclusive). -/
inductive OnChain (s : RepoState) : Nat → Nat → Prop
  | refl (o : Nat) : OnChain s o o
  | step {o p d : Nat} (h : parentOf s o = some p) (hc : OnChain s p d) : OnChain s o d

theorem OnChain.trans2 {s : RepoState} {a b c : Nat}
    (h1 : OnChain s a b) (h2 : OnChain s b c) : OnChain s a c := by
  induction h1 with
  | refl => exact h2
  | step hp _ ih => exact OnChain.step hp (ih h2)

theorem chainList_head (s : RepoState) (f o : Nat) : o ∈ chainList s f o := by
  cases f with
  | zero => exact List.mem_singleton.mpr rfl
  | succ f => exact List.mem_cons_self _ _

theorem mem_chainList_onChain (s : RepoState) :
    ∀ (f o d : Nat), d ∈ chainList s f o → OnChain s o d := by
  intro f
  induction f with
  | zero =>
    intro o d h
    rw [List.mem_singleton.mp h]
    exact OnChain.refl o
  | succ f ih =>
    intro o d h
    rcases List.mem_cons.mp h with e | e
    · rw [e]; exact OnChain.refl o
    · cases hp : parentOf s o with
      | none => rw [hp] at e; cases e
      | some p => rw [hp] at e; exact OnChain.step hp (ih p d e)

theorem onChain_parent_none {s : RepoState} {a d : Nat}
    (h : OnChain s a d) (hp : parentOf s a = none) : d = a := by
  cases h with
  | refl => rfl
  | step h' _ => rw [h'] at hp; cases hp

theorem parentOf_mem {s : RepoState} {o p : Nat} (h : parentOf s o = some p) :
    (o, some p) ∈ s.commits := by
  unfold parentOf at h
  cases hl : lookupA s.commits o with
  | none => rw [hl] at h; cases h
  | some po =>
    rw [hl] at h
    have h2 : po = some p := h
    have := lookupA_mem hl
    rw [h2] at this
    exact this

theorem onChain_mem_chainList {s : RepoState} (rank : Nat → Nat)
    (hdec : ∀ o p, parentOf s o = some p → rank p < rank o) :
    ∀ {o d}, OnChain s o d → ∀ f, rank o < f → d ∈ chainList s f o := by
  intro o d h
  induction h with
  | refl o => intro f _; exact chainList_head s f o
  | step hp hc ih =>
    intro f hf
    cases f with
    | zero => exact absurd hf (Nat.not_lt_zero _)
    | succ f' =>
      simp only [chainList]
      rw [hp]
      refine List.mem_cons_of_mem _ (ih f' ?_)
      have := hdec _ _ hp
      omega

/-! ### Well-formedness consequences -/

theorem wf_rank {s : RepoState} (W : WellFormed s) :
    ∃ rank : Nat → Nat,
      (∀ o p, parentOf s o = some p → rank p < rank o) ∧
      (∀ o, o ∈ s.commits.map Prod.fst → rank o < s.commits.length) := by
  obtain ⟨rank, h1, h2⟩ := W.ranked
  refine ⟨rank, ?_, ?_⟩
  · intro o p hp
    exact h1 _ (parentOf_mem hp)
  · intro o ho
    obtain ⟨c, hc, hco⟩ := List.mem_map.mp ho
    rw [← hco]
    exact h2 c hc

theorem oid_lt_next {s : RepoState} (W : WellFormed s) {o : Nat}
    (h : o ∈ s.commits.map Prod.fst) : o < s.nextOid := by
  obtain ⟨c, hc, hco⟩ := List.mem_map.mp h
  rw [← hco]
  exact W.oidsLt c hc

theorem parent_mem_oids {s : RepoState} (W : WellFormed s) {o p : Nat}
    (h : parentOf s o = some p) : p ∈ s.commits.map Prod.fst :=
  W.parentsClosed _ (parentOf_mem h)

theorem parentOf_none_of_notin {s : RepoState} {o : Nat}
    (h : o ∉ s.commits.map Prod.fst) : parentOf s o = none := by
  unfold parentOf
  rw [(lookupA_eq_none s.commits o).mpr h]

/-! ### Visibility lemmas -/

theorem reachable_exists_onChain {s : RepoState} {o : Nat}
    (h : reachableB s o = true) : ∃ r ∈ s.refs, OnChain s r.2 o := by
  unfold reachableB at h
  obtain ⟨r, hr, hd⟩ := List.any_eq_true.mp h
  exact ⟨r, hr, mem_chainList_onChain s _ _ _ (of_decide_eq_true hd)⟩

theorem onChain_reachable {s : RepoState} (W : WellFormed s) {r : String × Nat} {o : Nat}
    (hr : r ∈ s.refs) (h : OnChain s r.2 o) : reachableB s o = true := by
  unfold reachableB
  refine List.any_eq_true.mpr ⟨r, hr, decide_eq_true ?_⟩
  by_cases hm : r.2 ∈ s.commits.map Prod.fst
  · obtain ⟨rank, hdec, hbound⟩ := wf_rank W
    exact onChain_mem_chainList rank hdec h (graphFuel s) (hbound _ hm)
  · rw [onChain_parent_none h (parentOf_none_of_notin hm)]
    exact chainList_head s _ _

theorem ref_self_reachable {s : RepoState} {r : String × Nat} (hr : r ∈ s.refs) :
    reachableB s r.2 = true := by
  unfold reachableB
  exact List.any_eq_true.mpr ⟨r, hr, decide_eq_true (chainList_head s _ _)⟩

theorem reachable_parent {s : RepoState} (W : WellFormed s) {o p : Nat}
    (hv : reachableB s o = true) (hp : parentOf s o = some p) : reachableB s p = true := by
  obtain ⟨r, hr, hc⟩ := reachable_exists_onChain hv
  exact onChain_reachable W hr (hc.trans2 (OnChain.step hp (OnChain.refl p)))

theorem visFold_no_hide (s : RepoState) :
    ∀ (evs : List Event) (vis : Nat → Bool) (x : Nat),
    (evs.all (fun e =>
      match e with
      | Event.hideEv _ _ => false
      | Event.unhideEv _ _ => false
      | _ => true)) = true →
    visFold s evs vis x = vis x := by
  intro evs
  induction evs with
  | nil => intro vis x _; rfl
  | cons e rest ih =>
    intro vis x hall
    rw [List.all_cons, Bool.and_eq_true] at hall
    obtain ⟨he, hrest⟩ := hall
    cases e with
    | hideEv o r => cases he
    | unhideEv o r => cases he
    | refUpdate a b c => exact ih vis x hrest
    | commitRewrite a b => exact ih vis x hrest
    | checkoutEv a b => exact ih vis x hrest

/-- In a log without `Hide`/`Unhide` events, the full resolver coincides
with the reachability default: steps 2 and 3 change nothing (step 3 can
only hide a commit that is already Hidden by step 1). -/
theorem visible_eq_reachable {s : RepoState} (NH : noHideEvents s = true) (x : Nat) :
    visibleB s x = reachableB s x := by
  have hv2 : ∀ y, visFold s s.events (fun o => reachableB s o) y = reachableB s y :=
    fun y => visFold_no_hide s s.events _ y NH
  unfold visibleB
  by_cases hr : reachableB s x = true
  · rw [if_pos hr, hv2, hr]
  · rw [if_neg hr]
    have hx : reachableB s x = false := by
      cases e : reachableB s x
      · rfl
      · exact absurd e hr
    cases hl : lookupA (rewriteMap s.events) x with
    | none =>
      show visFold s s.events (fun o => reachableB s o) x = reachableB s x
      rw [hv2]
    | some y =>
      show (if decide (y ≠ x) && visFold s s.events (fun o => reachableB s o) y then false
            else visFold s s.events (fun o => reachableB s o) x) = reachableB s x
      by_cases hc : (decide (y ≠ x) && visFold s s.events (fun o => reachableB s o) y) = true
      · rw [if_pos hc, hx]
      · rw [if_neg hc, hv2]

/-- Restack appends only `CommitRewrite` events, so it preserves the
absence of `Hide`/`Unhide` events. -/
theorem noHideEvents_restack {s : RepoState} (NH : noHideEvents s = true) :
    noHideEvents (restack s) = true := by
  unfold noHideEvents at NH ⊢
  show (s.events ++ (planFresh s).map (fun of => Event.commitRewrite of.1 of.2)).all _ = true
  rw [List.all_append, NH, Bool.true_and]
  exact List.all_eq_true.mpr (fun e he => by
    obtain ⟨of, hof, hoe⟩ := List.mem_map.mp he
    rw [← hoe])

/-! ### Stale-chain lemmas -/

theorem chainStale_mono {s : RepoState} :
    ∀ {f f' o}, chainStaleB s f o = true → f ≤ f' → chainStaleB s f' o = true := by
  intro f
  induction f with
  | zero => intro f' o h; cases h
  | succ f ih =>
    intro f' o h hle
    cases f' with
    | zero => omega
    | succ f2 =>
      simp only [chainStaleB, Bool.or_eq_true] at h ⊢
      rcases h with h | h
      · exact Or.inl h
      · right
        cases hp : parentOf s o with
        | none => rw [hp] at h; cases h
        | some p =>
          rw [hp] at h
          exact ih h (by omega)

theorem not_chainStale_of_noStale {s : RepoState} {o : Nat}
    (h : ∀ d, OnChain s o d → staleB s d = false) :
    ∀ f, chainStaleB s f o = false := by
  intro f
  induction f generalizing o with
  | zero => rfl
  | succ f ih =>
    simp only [chainStaleB, Bool.or_eq_false_iff]
    refine ⟨h o (OnChain.refl o), ?_⟩
    cases hp : parentOf s o with
    | none => rfl
    | some p => exact ih (fun d hd => h d (OnChain.step hp hd))

theorem chainStale_of_onChain_stale {s : RepoState} (rank : Nat → Nat)
    (hdec : ∀ o p, parentOf s o = some p → rank p < rank o) :
    ∀ {o d}, OnChain s o d → staleB s d = true → ∀ f, rank o < f →
    chainStaleB s f o = true := by
  intro o d h
  induction h with
  | refl o =>
    intro hd f hf
    cases f with
    | zero => omega
    | succ f =>
      simp only [chainStaleB, Bool.or_eq_true]
      exact Or.inl hd
  | step hp hc ih =>
    intro hd f hf
    cases f with
    | zero => omega
    | succ f'
    =>
      simp only [chainStaleB, Bool.or_eq_true]
      right
      rw [hp]
      refine ih hd f' ?_
      have := hdec _ _ hp
      omega

theorem exists_stale_of_chainStale {s : RepoState} :
    ∀ {f o}, chainStaleB s f o = true → ∃ d, OnChain s o d ∧ staleB s d = true := by
  intro f
  induction f with
  | zero => intro o h; cases h
  | succ f ih =>
    intro o h
    simp only [chainStaleB, Bool.or_eq_true] at h
    rcases h with h | h
    · exact ⟨o, OnChain.refl o, h⟩
    · cases hp : parentOf s o with
      | none => rw [hp] at h; cases h
      | some p =>
        rw [hp] at h
        obtain ⟨d, hd1, hd2⟩ := ih h
        exact ⟨d, OnChain.step hp hd1, hd2⟩

/-- No commit on the ancestor chain from `y` has a stale parent edge. -/
def NoStaleChain (s : RepoState) (y : Nat) : Prop :=
  ∀ d, OnChain s y d → staleB s d = false

theorem noStale_of_not_chainStale {s : RepoState} (W : WellFormed s) {y : Nat}
    (h : chainStaleB s (graphFuel s + 1) y = false) : NoStaleChain s y := by
  intro d hd
  by_cases hy : y ∈ s.commits.map Prod.fst
  · by_contra hne
    have hst : staleB s d = true := by
      cases e : staleB s d
      · exact absurd e hne
      · rfl
    obtain ⟨rank, hdec, hbound⟩ := wf_rank W
    have := chainStale_of_onChain_stale rank hdec hd hst (graphFuel s + 1)
      (by have := hbound _ hy; unfold graphFuel; omega)
    rw [this] at h
    cases h
  · rw [onChain_parent_none hd (parentOf_none_of_notin hy)]
    unfold staleB
    rw [parentOf_none_of_notin hy]

theorem notin_plan_of_noStale {s : RepoState} {y : Nat}
    (h : NoStaleChain s y) : y ∉ plan s := by
  intro hmem
  unfold plan at hmem
  have hab := (List.mem_filter.mp hmem).2
  unfold abandonedB at hab
  rw [Bool.and_eq_true] at hab
  have hcs : chainStaleB s (graphFuel s + 1) y = true := hab.2
  obtain ⟨d, hd1, hd2⟩ := exists_stale_of_chainStale hcs
  rw [h d hd1] at hd2
  cases hd2


/-! ### The rewrite map and parent edges after a restack run -/

theorem restack_events_map (s : RepoState) :
    rewriteMap (restack s).events =
      (planFresh s).foldl (fun m of => rmInsert m of.1 of.2) (rewriteMap s.events) := by
  show rewriteMap (s.events ++ (planFresh s).map (fun of => Event.commitRewrite of.1 of.2)) = _
  exact rewriteMap_append_crs s.events (planFresh s)

theorem planFresh_key_ne {s : RepoState} {k : Nat} (hk : k ∉ plan s) :
    ∀ of ∈ planFresh s, of.1 ≠ k := by
  intro of hof e
  have h1 := (assignFresh_mem_bounds hof).1
  rw [e] at h1
  exact hk h1

theorem mapPrime_none {s : RepoState} {k : Nat}
    (hk : lookupA (rewriteMap s.events) k = none) (hp : k ∉ plan s) :
    lookupA (rewriteMap (restack s).events) k = none := by
  rw [restack_events_map]
  exact foldCR_none _ _ _ (planFresh_key_ne hp) hk

theorem mapPrime_self {s : RepoState} {k : Nat}
    (hk : lookupA (rewriteMap s.events) k = some k) (hp : k ∉ plan s) :
    lookupA (rewriteMap (restack s).events) k = some k := by
  rw [restack_events_map]
  exact foldCR_self _ _ _ (planFresh_key_ne hp) hk

theorem mapPrime_fresh_none {s : RepoState} (W : WellFormed s) {f : Nat}
    (hf : s.nextOid ≤ f) : lookupA (rewriteMap (restack s).events) f = none := by
  have h1 : lookupA (rewriteMap s.events) f = none := by
    cases hl : lookupA (rewriteMap s.events) f with
    | none => rfl
    | some v =>
      have := (W.mapLt _ (lookupA_mem hl)).1
      omega
  have h2 : f ∉ plan s := by
    intro hmem
    have : f ∈ s.commits.map Prod.fst := (List.mem_filter.mp hmem).1
    have := oid_lt_next W this
    omega
  exact mapPrime_none h1 h2

theorem parentOf_restack_old {s : RepoState} {x : Nat} (hx : x < s.nextOid) :
    parentOf (restack s) x = parentOf s x := by
  show (match lookupA (s.commits ++ (planFresh s).map
      (fun of => (of.2, newParent s of.1))) x with
    | some po => po
    | none => none) = parentOf s x
  cases hl : lookupA s.commits x with
  | some po =>
    rw [lookupA_append_some _ hl]
    unfold parentOf
    rw [hl]
  | none =>
    rw [lookupA_append_none _ hl]
    rw [show planFresh s = assignFresh (plan s) s.nextOid from rfl]
    rw [assignFresh_news_lookup_lt (fun o => newParent s o) hx]
    unfold parentOf
    rw [hl]

theorem parentOf_restack_fresh {s : RepoState} (W : WellFormed s) {o f : Nat}
    (hof : (o, f) ∈ planFresh s) : parentOf (restack s) f = newParent s o := by
  have hfn : s.nextOid ≤ f := (assignFresh_mem_bounds hof).2
  have hl : lookupA s.commits f = none := by
    rw [lookupA_eq_none]
    intro hm
    have := oid_lt_next W hm
    omega
  show (match lookupA (s.commits ++ (planFresh s).map
      (fun of => (of.2, newParent s of.1))) f with
    | some po => po
    | none => none) = newParent s o
  rw [lookupA_append_none _ hl]
  rw [show planFresh s = assignFresh (plan s) s.nextOid from rfl]
  rw [assignFresh_news_lookup (fun q => newParent s q) hof]


/-! ### Plan membership and the final target -/

theorem planFresh_lookup_none_notin {s : RepoState} {p : Nat}
    (h : lookupA (planFresh s) p = none) : p ∉ plan s := by
  intro hm
  obtain ⟨f, hf⟩ := assignFresh_lookup_mem (n := s.nextOid) hm
  rw [show planFresh s = assignFresh (plan s) s.nextOid from rfl] at h
  rw [h] at hf
  cases hf

theorem plan_mem_facts {s : RepoState} {o : Nat} (h : o ∈ plan s) :
    o ∈ s.commits.map Prod.fst ∧ visibleB s o = true ∧
      chainStaleB s (graphFuel s + 1) o = true := by
  unfold plan at h
  obtain ⟨h1, h2⟩ := List.mem_filter.mp h
  unfold abandonedB at h2
  rw [Bool.and_eq_true] at h2
  exact ⟨h1, h2.1, h2.2⟩

theorem not_abandoned_of_notin_plan {s : RepoState} {o : Nat}
    (ho : o ∈ s.commits.map Prod.fst) (h : o ∉ plan s) : abandonedB s o = false := by
  cases e : abandonedB s o with
  | false => rfl
  | true => exact absurd (List.mem_filter.mpr ⟨ho, e⟩) h

theorem followMap_succ (m : List (Nat × Nat)) (fuel x : Nat) :
    followMap m (fuel + 1) x =
      match lookupA m x with
      | none => x
      | some y => if y = x then x else followMap m fuel y := rfl

theorem followMap_step_end {m : List (Nat × Nat)} {p q : Nat}
    (hcol : ∀ kv ∈ m, lookupA m kv.2 = none ∨ lookupA m kv.2 = some kv.2)
    (hq : lookupA m p = some q) (hqp : q ≠ p) :
    followMap m (m.length + 1) p = q := by
  have hmem := lookupA_mem hq
  have hlen : 1 ≤ m.length := by
    cases m with
    | nil => cases hmem
    | cons c r => simp
  obtain ⟨len2, hlen2⟩ : ∃ len2, m.length = len2 + 1 := ⟨m.length - 1, by omega⟩
  rw [hlen2, followMap_succ, hq]
  show (if q = p then p else followMap m (len2 + 1) q) = q
  rw [if_neg hqp, followMap_succ]
  rcases hcol (p, q) hmem with hc | hc
  · rw [hc]
  · rw [hc]
    show (if q = q then q else followMap m len2 q) = q
    rw [if_pos rfl]

/-- The new target parent of a replayed commit is either the fresh
incarnation of a commit repaired in this same plan, or an oid that is
current: nothing on its ancestor chain is stale, it lies below the fresh
supply, and the rewrite map does not move it. -/
theorem finalTarget_spec {s : RepoState} (W : WellFormed s) (T : TargetsCurrent s)
    (NH : noHideEvents s = true)
    {o p : Nat} (ho : o ∈ plan s) (hp : parentOf s o = some p) :
    (∃ of ∈ planFresh s, finalTarget s p = of.2) ∨
    (NoStaleChain s (finalTarget s p) ∧ finalTarget s p < s.nextOid ∧
      (lookupA (rewriteMap s.events) (finalTarget s p) = none ∨
       lookupA (rewriteMap s.events) (finalTarget s p) = some (finalTarget s p))) := by
  cases hpf : lookupA (planFresh s) p with
  | some fx =>
    have hval : finalTarget s p = fx := by unfold finalTarget; rw [hpf]
    exact Or.inl ⟨(p, fx), lookupA_mem hpf, hval⟩
  | none =>
    have hpP : p ∉ plan s := planFresh_lookup_none_notin hpf
    obtain ⟨hoid, hov, hocs⟩ := plan_mem_facts ho
    have hov2 : reachableB s o = true := by
      rw [← visible_eq_reachable NH]
      exact hov
    have hpv : visibleB s p = true := by
      rw [visible_eq_reachable NH]
      exact reachable_parent W hov2 hp
    have hpoid : p ∈ s.commits.map Prod.fst := parent_mem_oids W hp
    have hpab : abandonedB s p = false := not_abandoned_of_notin_plan hpoid hpP
    have hpchain : chainStaleB s (graphFuel s + 1) p = false := by
      unfold abandonedB at hpab
      rw [hpv] at hpab
      simpa using hpab
    have hstale : staleB s o = true := by
      have h2 : chainStaleB s (graphFuel s + 1) o = true := hocs
      simp only [chainStaleB, Bool.or_eq_true] at h2
      rcases h2 with h2 | h2
      · exact h2
      · rw [hp] at h2
        have := chainStale_mono h2 (Nat.le_succ (graphFuel s))
        rw [this] at hpchain
        cases hpchain
    obtain ⟨q, hq, hqp⟩ : ∃ q, lookupA (rewriteMap s.events) p = some q ∧ q ≠ p := by
      unfold staleB at hstale
      rw [hp] at hstale
      have hstale2 : (match lookupA (rewriteMap s.events) p with
          | none => false
          | some q => decide (q ≠ p)) = true := hstale
      cases hl : lookupA (rewriteMap s.events) p with
      | none => rw [hl] at hstale2; cases hstale2
      | some q =>
        rw [hl] at hstale2
        exact ⟨q, rfl, of_decide_eq_true hstale2⟩
    have hfm : followMap (rewriteMap s.events) ((rewriteMap s.events).length + 1) p = q :=
      followMap_step_end W.collapsed hq hqp
    cases hqf : lookupA (planFresh s) q with
    | some fy =>
      have hval : finalTarget s p = fy := by
        unfold finalTarget
        rw [hpf, hfm]
        show (match lookupA (planFresh s) q with
          | some fy => fy
          | none => q) = fy
        rw [hqf]
      exact Or.inl ⟨(q, fy), lookupA_mem hqf, hval⟩
    | none =>
      have hval : finalTarget s p = q := by
        unfold finalTarget
        rw [hpf, hfm]
        show (match lookupA (planFresh s) q with
          | some fy => fy
          | none => q) = q
        rw [hqf]
      right
      rw [hval]
      have hqmem := lookupA_mem hq
      refine ⟨noStale_of_not_chainStale W (T (p, q) hqmem), (W.mapLt _ hqmem).2,
        W.collapsed (p, q) hqmem⟩


/-- Invariant carried along every ancestor chain of the restacked state:
the commit is either a fresh incarnation minted by this plan, or an old
oid whose chain was already current. -/
def InvP (s : RepoState) (x : Nat) : Prop :=
  (∃ of ∈ planFresh s, x = of.2) ∨ (NoStaleChain s x ∧ x < s.nextOid)

theorem inv_step {s : RepoState} (W : WellFormed s) (T : TargetsCurrent s)
    (NH : noHideEvents s = true) {x : Nat} (hx : InvP s x) :
    staleB (restack s) x = false ∧
      ∀ p, parentOf (restack s) x = some p → InvP s p := by
  rcases hx with ⟨of, hof, hxe⟩ | ⟨hns, hlt⟩
  · -- fresh incarnation
    subst hxe
    have hof2 : (of.1, of.2) ∈ planFresh s := hof
    have hpar : parentOf (restack s) of.2 = newParent s of.1 :=
      parentOf_restack_fresh W hof2
    have hoP : of.1 ∈ plan s := (assignFresh_mem_bounds hof2).1
    cases hp : parentOf s of.1 with
    | none =>
      have hnp : newParent s of.1 = none := by unfold newParent; rw [hp]; rfl
      constructor
      · unfold staleB
        rw [hpar, hnp]
      · intro p hp2
        rw [hpar, hnp] at hp2
        cases hp2
    | some p =>
      have hnp : newParent s of.1 = some (finalTarget s p) := by
        unfold newParent; rw [hp]; rfl
      rcases finalTarget_spec W T NH hoP hp with ⟨of2, hof2, hft⟩ | ⟨hns2, hlt2, hcol2⟩
      · -- target is itself a fresh incarnation
        have hm : lookupA (rewriteMap (restack s).events) (finalTarget s p) = none := by
          rw [hft]
          exact mapPrime_fresh_none W (assignFresh_mem_bounds hof2).2
        constructor
        · unfold staleB
          rw [hpar, hnp]
          show (match lookupA (rewriteMap (restack s).events) (finalTarget s p) with
            | none => false
            | some q => decide (q ≠ finalTarget s p)) = false
          rw [hm]
        · intro p2 hp2
          rw [hpar, hnp] at hp2
          injection hp2 with e
          rw [← e]
          exact Or.inl ⟨of2, hof2, hft⟩
      · -- target is an old, current oid
        have hftP : finalTarget s p ∉ plan s := notin_plan_of_noStale hns2
        have hm : lookupA (rewriteMap (restack s).events) (finalTarget s p) = none ∨
            lookupA (rewriteMap (restack s).events) (finalTarget s p) =
              some (finalTarget s p) := by
          rcases hcol2 with hc | hc
          · exact Or.inl (mapPrime_none hc hftP)
          · exact Or.inr (mapPrime_self hc hftP)
        constructor
        · unfold staleB
          rw [hpar, hnp]
          show (match lookupA (rewriteMap (restack s).events) (finalTarget s p) with
            | none => false
            | some q => decide (q ≠ finalTarget s p)) = false
          rcases hm with hc | hc
          · rw [hc]
          · rw [hc]
            simp
        · intro p2 hp2
          rw [hpar, hnp] at hp2
          injection hp2 with e
          rw [← e]
          exact Or.inr ⟨hns2, hlt2⟩
  · -- old, current oid
    have hpar : parentOf (restack s) x = parentOf s x := parentOf_restack_old hlt
    cases hp : parentOf s x with
    | none =>
      constructor
      · unfold staleB
        rw [hpar, hp]
      · intro p hp2
        rw [hpar, hp] at hp2
        cases hp2
    | some p =>
      have hst : staleB s x = false := hns x (OnChain.refl x)
      have hcol : lookupA (rewriteMap s.events) p = none ∨
          lookupA (rewriteMap s.events) p = some p := by
        unfold staleB at hst
        rw [hp] at hst
        have hst2 : (match lookupA (rewriteMap s.events) p with
            | none => false
            | some q => decide (q ≠ p)) = false := hst
        cases hl : lookupA (rewriteMap s.events) p with
        | none => exact Or.inl rfl
        | some q =>
          rw [hl] at hst2
          have hst3 : decide (q ≠ p) = false := hst2
          have hqe : q = p := by
            by_contra hne
            rw [decide_eq_true hne] at hst3
            cases hst3
          subst hqe
          exact Or.inr rfl
      have hnsp : NoStaleChain s p := fun d hd => hns d (OnChain.step hp hd)
      have hpP : p ∉ plan s := notin_plan_of_noStale hnsp
      have hplt : p < s.nextOid := oid_lt_next W (parent_mem_oids W hp)
      constructor
      · unfold staleB
        rw [hpar, hp]
        show (match lookupA (rewriteMap (restack s).events) p with
          | none => false
          | some q => decide (q ≠ p)) = false
        rcases hcol with hc | hc
        · rw [mapPrime_none hc hpP]
        · rw [mapPrime_self hc hpP]
          simp
      · intro p2 hp2
        rw [hpar, hp] at hp2
        injection hp2 with e
        rw [← e]
        exact Or.inr ⟨hnsp, hplt⟩

theorem inv_chain {s : RepoState} (W : WellFormed s) (T : TargetsCurrent s)
    (NH : noHideEvents s = true) :
    ∀ {x d : Nat}, OnChain (restack s) x d → InvP s x →
    staleB (restack s) d = false ∧ InvP s d := by
  intro x d h
  induction h with
  | refl o => intro hx; exact ⟨(inv_step W T NH hx).1, hx⟩
  | step hp _ ih =>
    intro hx
    exact ih ((inv_step W T NH hx).2 _ hp)

theorem refs_inv {s : RepoState} (W : WellFormed s)
    (NH : noHideEvents s = true) {r : String × Nat}
    (hr : r ∈ s.refs) :
    InvP s (match lookupA (planFresh s) r.2 with
            | some f => f
            | none => r.2) := by
  cases hpf : lookupA (planFresh s) r.2 with
  | some f => exact Or.inl ⟨(r.2, f), lookupA_mem hpf, rfl⟩
  | none =>
    right
    have hrP : r.2 ∉ plan s := planFresh_lookup_none_notin hpf
    refine ⟨?_, W.refsLt r hr⟩
    by_cases hm : r.2 ∈ s.commits.map Prod.fst
    · have hab : abandonedB s r.2 = false := not_abandoned_of_notin_plan hm hrP
      have hv : visibleB s r.2 = true := by
        rw [visible_eq_reachable NH]
        exact ref_self_reachable hr
      have hcs : chainStaleB s (graphFuel s + 1) r.2 = false := by
        unfold abandonedB at hab
        rw [hv] at hab
        simpa using hab
      exact noStale_of_not_chainStale W hcs
    · intro d hd
      rw [onChain_parent_none hd (parentOf_none_of_notin hm)]
      unfold staleB
      rw [parentOf_none_of_notin hm]


/-! ### Idempotence -/

theorem plan_restack_nil {s : RepoState} (W : WellFormed s) (T : TargetsCurrent s)
    (NH : noHideEvents s = true) :
    plan (restack s) = [] := by
  unfold plan
  rw [List.filter_eq_nil_iff]
  intro c hc hab
  unfold abandonedB at hab
  rw [Bool.and_eq_true] at hab
  obtain ⟨hv, hcs⟩ := hab
  have hv2 : reachableB (restack s) c = true := by
    rw [← visible_eq_reachable (noHideEvents_restack NH)]
    exact hv
  obtain ⟨r', hr', hoc⟩ := reachable_exists_onChain hv2
  obtain ⟨r, hr, hre⟩ := List.mem_map.mp hr'
  have hinv : InvP s r'.2 := by
    rw [← hre]
    exact refs_inv W NH hr
  have hns : ∀ d, OnChain (restack s) c d → staleB (restack s) d = false := by
    intro d hd
    exact (inv_chain W T NH (hoc.trans2 hd) hinv).1
  rw [not_chainStale_of_noStale hns (graphFuel (restack s) + 1)] at hcs
  cases hcs

/-- C7 counterexample: for `cexState` (whose log rewrites commit 0 to the
unreachable, itself-stale commit 3), a second restack run performs further
rewrites and moves `main` again — the final ref state after two runs
differs from the state after one. -/
theorem restack_idempotent_cex :
    (restack (restack cexState)).refs ≠ (restack cexState).refs ∧
    plan (restack cexState) ≠ [] := by decide

/-- C7 (amended): for every well-formed repository and log state whose
log carries no `Hide`/`Unhide` events and whose rewrite-map targets are
themselves current (no stale ancestry), running restack twice yields a
state identical to running it once — in particular identical final ref
state, and the second run finds no abandoned commits and performs no
rewrites.  When a rewrite target is itself attached to a stale parent
and unreachable, a second run can perform additional rewrites (see the
counterexample); an `Unhide` of an unreachable stale commit can keep a
commit abandoned across runs the same way. -/
theorem restack_idempotent_amended (s : RepoState) (W : WellFormed s)
    (T : TargetsCurrent s) (NH : noHideEvents s = true) :
    restack (restack s) = restack s := by
  have hplan : plan (restack s) = [] := plan_restack_nil W T NH
  have hpf : planFresh (restack s) = [] := by
    unfold planFresh
    rw [hplan]
    rfl
  show RepoState.mk
      ((restack s).commits ++ (planFresh (restack s)).map
        (fun of => (of.2, newParent (restack s) of.1)))
      ((restack s).refs.map (fun r =>
        (r.1, match lookupA (planFresh (restack s)) r.2 with
              | some f => f
              | none => r.2)))
      ((restack s).events ++ (planFresh (restack s)).map
        (fun of => Event.commitRewrite of.1 of.2))
      ((restack s).nextOid + (plan (restack s)).length) = restack s
  rw [hplan, hpf]
  simp only [List.map_nil, List.append_nil, List.length_nil, Nat.add_zero]
  have hrefs : (restack s).refs.map (fun r =>
      (r.1, match lookupA ([] : List (Nat × Nat)) r.2 with
            | some f => f
            | none => r.2)) = (restack s).refs := by
    rw [show (fun (r : String × Nat) =>
        (r.1, match lookupA ([] : List (Nat × Nat)) r.2 with
              | some f => f
              | none => r.2)) = id from funext (fun r => rfl)]
    exact List.map_id _
  rw [hrefs]

/-- C7 witness: the amended idempotence at the concrete well-formed state
`wfState`, whose hypotheses are discharged by evaluation (with the
explicit acyclicity rank). -/
theorem restack_idempotent_witness :
    restack (restack wfState) = restack wfState :=
  restack_idempotent_amended wfState
    ⟨by decide,
      by intro c hc; fin_cases hc <;> decide,
      ⟨fun o => if o = 3 then 2 else o,
        by intro c hc; fin_cases hc <;> decide,
        by intro c hc; fin_cases hc <;> decide⟩,
      by intro c hc; fin_cases hc <;> decide,
      by intro r hr; fin_cases hr <;> decide,
      by intro kv hkv; fin_cases hkv <;> decide,
      by intro kv hkv; fin_cases hkv <;> decide⟩
    (by intro kv hkv; fin_cases hkv <;> decide)
    (by decide)

end Branchless
